import Mathlib

/-!
A verification development for the nano-vllm paged KV-cache block manager
(`nanovllm/engine/block_manager.py`) and sequence state machinery
(`nanovllm/engine/sequence.py`).

The Python source is shallowly embedded: each class becomes a structure,
each method a (total or `Option`-valued) function.  A method whose body can
raise (a failed `assert`, an out-of-range index, `deque[0]` on an empty
deque, `set.remove` on a missing element) is modelled as returning `none`
in exactly those situations.  Machine integers are modelled as `Int`/`Nat`
(token ids and reference counts are small Python ints, no overflow is in
play).

The source hashes block contents with xxhash (64-bit).  The design treats
that digest as a collision-free content fingerprint (spec: hash collisions
are "treated as impossible by design, not handled"), so the model replaces
it by an injective, executable encoding of the pair (prefix hash, token
list) into the nonnegative integers; like the source digest it is always
nonnegative and therefore never equal to the sentinel `-1`.
-/

namespace NanoVllm

/-- Injective encoding of an `Int` into `Nat` (used only inside the model of
`compute_hash`). -/
def encTok (t : Int) : Nat := if t < 0 then 2 * (-t).toNat - 1 else 2 * t.toNat

/-- Injective encoding of a token list into `Nat` (used only inside the model
of `compute_hash`). -/
def encList : List Int → Nat
  | [] => 0
  | t :: rest => Nat.pair (encTok t) (encList rest) + 1

/-- Models `BlockManager.compute_hash(token_ids, prefix)`.  The source feeds
the 8-byte prefix digest (when not `-1`) followed by the serialized token
array into xxhash64; the spec stipulates the digest is collision free, so we
model it as an injective pairing of the prefix value with the token list.
The result is always nonnegative, hence distinct from the sentinel `-1`. -/
def compute_hash (token_ids : List Int) (pre : Int) : Int :=
  (Nat.pair (encTok pre) (encList token_ids) : Nat)

/-- Models the `Block` class: physical slot with id, reference count,
content hash (sentinel `-1`) and materialized token content. -/
structure Block where
  block_id : Nat
  ref_count : Int
  hash : Int
  token_ids : List Int
deriving DecidableEq, Repr

/-- `Block.__init__`: fresh block with ref_count 0, sentinel hash, no content. -/
def Block.mkNew (i : Nat) : Block := ⟨i, 0, -1, []⟩

/-- `Block.update(hash, token_ids)`. -/
def Block.update (b : Block) (h : Int) (token_ids : List Int) : Block :=
  { b with hash := h, token_ids := token_ids }

/-- `Block.reset()`: ref_count 1, sentinel hash, cleared content. -/
def Block.reset (b : Block) : Block :=
  { b with ref_count := 1, hash := -1, token_ids := [] }

/-- Models the `Sequence` class (the fields the allocator and the wire
contract read; `seq_id`, `status` and the sampling parameters are opaque
payload never consulted by the code under verification). -/
structure Sequence where
  token_ids : List Int
  last_token : Int
  num_tokens : Nat
  num_prompt_tokens : Nat
  num_cached_tokens : Nat
  block_table : List Nat
deriving DecidableEq, Repr

/-- `Sequence.__init__(token_ids)`: reads `token_ids[-1]`, which raises
`IndexError` on an empty list — modelled by `none`. -/
def Sequence.init (token_ids : List Int) : Option Sequence :=
  match token_ids.getLast? with
  | none => none
  | some t => some ⟨token_ids, t, token_ids.length, token_ids.length, 0, []⟩

/-- `Sequence.num_completion_tokens` (an `Int`, as in Python). -/
def Sequence.numCompletionTokens (s : Sequence) : Int :=
  (s.num_tokens : Int) - (s.num_prompt_tokens : Int)

/-- `Sequence.num_blocks`: `(num_tokens + block_size - 1) // block_size`.
The source fixes `Sequence.block_size = 256` as a class attribute and the
engine constructs the manager with the same value; we parameterize by the
shared block size `bs`. -/
def Sequence.num_blocks (bs : Nat) (s : Sequence) : Nat :=
  (s.num_tokens + bs - 1) / bs

/-- The slice `token_ids[i*bs : (i+1)*bs]` (logical block `i` of a token
list). -/
def blockChunk (bs : Nat) (token_ids : List Int) (i : Nat) : List Int :=
  (token_ids.drop (i * bs)).take bs

/-- `Sequence.block(i)`. -/
def Sequence.block (bs : Nat) (s : Sequence) (i : Nat) : List Int :=
  blockChunk bs s.token_ids i

/-- `Sequence.append_token(token_id)`. -/
def Sequence.appendToken (s : Sequence) (t : Int) : Sequence :=
  { s with token_ids := s.token_ids ++ [t], last_token := t, num_tokens := s.num_tokens + 1 }

/-- The variable tail of the wire payload: full token list at prompt stage,
single most recent token during generation. -/
inductive Tail where
  | full (token_ids : List Int)
  | single (t : Int)
deriving DecidableEq, Repr

/-- The wire payload produced by `Sequence.__getstate__`. -/
abbrev SeqState := Nat × Nat × Nat × List Nat × Tail

/-- `Sequence.__getstate__`. -/
def Sequence.getstate (s : Sequence) : SeqState :=
  (s.num_tokens, s.num_prompt_tokens, s.num_cached_tokens, s.block_table,
   if s.numCompletionTokens = 0 then Tail.full s.token_ids else Tail.single s.last_token)

/-- `Sequence.__setstate__`.  Python assigns `state[-1]` to `token_ids` when
the reconstructed completion count is zero and to `last_token` otherwise; a
payload whose tail has the wrong shape for the branch taken would put a
value of the wrong type into the field, modelled as `none`. -/
def Sequence.setstate (s : Sequence) (st : SeqState) : Option Sequence :=
  let s1 := { s with num_tokens := st.1, num_prompt_tokens := st.2.1,
                     num_cached_tokens := st.2.2.1, block_table := st.2.2.2.1 }
  if s1.numCompletionTokens = (0 : Int) then
    match st.2.2.2.2 with
    | Tail.full tids => some { s1 with token_ids := tids }
    | Tail.single _ => none
  else
    match st.2.2.2.2 with
    | Tail.full _ => none
    | Tail.single t => some { s1 with last_token := t }

/-- Models the `BlockManager` class. `hash_to_block_id` (a Python dict) is an
association list looked up front-to-back, insertion prepending and removing
any older binding of the same key (last-writer-wins, exactly the dict's
observable behaviour). -/
structure BlockManager where
  block_size : Nat
  blocks : List Block
  hash_to_block_id : List (Int × Nat)
  free_block_ids : List Nat
  used_block_ids : Finset Nat
deriving DecidableEq

/-- `dict.get(h, -1)`. -/
def dictGet (m : List (Int × Nat)) (k : Int) : Int :=
  match m.find? (fun p => p.1 == k) with
  | some p => (p.2 : Nat)
  | none => -1

/-- `dict[h] = v`. -/
def dictInsert (m : List (Int × Nat)) (k : Int) (v : Nat) : List (Int × Nat) :=
  (k, v) :: m.filter (fun p => !(p.1 == k))

/-- `BlockManager.__init__(num_blocks, block_size)`. -/
def BlockManager.init (num_blocks block_size : Nat) : BlockManager :=
  ⟨block_size, (List.range num_blocks).map Block.mkNew, [], List.range num_blocks, ∅⟩

/-- `self.blocks[i]` (all call sites are in range; theorems carry the bound). -/
def BlockManager.getBlock (m : BlockManager) (i : Nat) : Block :=
  m.blocks.getD i (Block.mkNew 0)

/-- Write back `self.blocks[i]`. -/
def BlockManager.setBlock (m : BlockManager) (i : Nat) (b : Block) : BlockManager :=
  { m with blocks := m.blocks.set i b }

/-- `BlockManager._allocate_block(block_id)`: asserts `ref_count == 0`,
resets the block, removes the id from the free deque (`deque.remove` raises
if absent) and adds it to the used set. -/
def BlockManager.allocBlock (m : BlockManager) (block_id : Nat) : Option BlockManager :=
  if block_id < m.blocks.length ∧ (m.getBlock block_id).ref_count = 0 ∧
      block_id ∈ m.free_block_ids then
    some { m with blocks := m.blocks.set block_id (m.getBlock block_id).reset,
                  free_block_ids := m.free_block_ids.erase block_id,
                  used_block_ids := insert block_id m.used_block_ids }
  else none

/-- `BlockManager._deallocate_block(block_id)`: asserts `ref_count == 0`,
moves the id from the used set (raising if absent) to the back of the free
deque. -/
def BlockManager.deallocBlock (m : BlockManager) (block_id : Nat) : Option BlockManager :=
  if block_id < m.blocks.length ∧ (m.getBlock block_id).ref_count = 0 ∧
      block_id ∈ m.used_block_ids then
    some { m with used_block_ids := m.used_block_ids.erase block_id,
                  free_block_ids := m.free_block_ids ++ [block_id] }
  else none

/-- `BlockManager.can_allocate(seq)`. -/
def BlockManager.can_allocate (m : BlockManager) (s : Sequence) : Bool :=
  s.num_blocks m.block_size ≤ m.free_block_ids.length

/-- The state threaded through `BlockManager.allocate`'s loop: the manager,
the sequence being populated, the running chained hash `h` and the
`cache_miss` flag. -/
structure AllocSt where
  mgr : BlockManager
  seq : Sequence
  hsh : Int
  cache_miss : Bool
deriving DecidableEq

/-- One iteration of the loop in `BlockManager.allocate` (lines 86-105 of
`block_manager.py`), processing one logical block's token slice. -/
def allocStep (bs : Nat) (st : AllocSt) (token_ids : List Int) : Option AllocSt :=
  let h : Int := if token_ids.length = bs then compute_hash token_ids st.hsh else -1
  let bid0 : Int := dictGet st.mgr.hash_to_block_id h
  let miss : Bool := st.cache_miss || decide (bid0 = -1) ||
    decide ((st.mgr.getBlock bid0.toNat).token_ids ≠ token_ids)
  let core : Option (BlockManager × Sequence × Nat) :=
    if miss then
      match st.mgr.free_block_ids with
      | [] => none
      | bid :: _ => (st.mgr.allocBlock bid).map (fun m2 => (m2, st.seq, bid))
    else
      let s2 := { st.seq with num_cached_tokens := st.seq.num_cached_tokens + bs }
      let bid := bid0.toNat
      if bid ∈ st.mgr.used_block_ids then
        some (st.mgr.setBlock bid
                { st.mgr.getBlock bid with ref_count := (st.mgr.getBlock bid).ref_count + 1 },
              s2, bid)
      else
        (st.mgr.allocBlock bid).map (fun m2 => (m2, s2, bid))
  core.map (fun q =>
    let m3 := if h ≠ -1 then
        { q.1.setBlock q.2.2 ((q.1.getBlock q.2.2).update h token_ids) with
          hash_to_block_id := dictInsert q.1.hash_to_block_id h q.2.2 }
      else q.1
    ⟨m3, { q.2.1 with block_table := q.2.1.block_table ++ [q.2.2] }, h, miss⟩)

/-- The loop of `BlockManager.allocate` over the logical blocks' slices. -/
def allocLoop (bs : Nat) : AllocSt → List (List Int) → Option AllocSt
  | st, [] => some st
  | st, tids :: rest => (allocStep bs st tids).bind (fun st2 => allocLoop bs st2 rest)

/-- The token slices of all logical blocks of a sequence. -/
def logicalBlocks (bs : Nat) (s : Sequence) : List (List Int) :=
  (List.range (s.num_blocks bs)).map (s.block bs)

/-- `BlockManager.allocate(seq)`: asserts the block table is empty, then
binds every logical block. -/
def BlockManager.allocate (m : BlockManager) (s : Sequence) : Option (BlockManager × Sequence) :=
  if s.block_table = [] then
    (allocLoop m.block_size ⟨m, s, -1, false⟩ (logicalBlocks m.block_size s)).map
      (fun st => (st.mgr, st.seq))
  else none

/-- One iteration of the loop in `BlockManager.deallocate`: decrement the
block's reference count and release it when the count reaches zero. -/
def deallocStep (m : BlockManager) (block_id : Nat) : Option BlockManager :=
  if block_id < m.blocks.length then
    let b := m.getBlock block_id
    let m2 := m.setBlock block_id { b with ref_count := b.ref_count - 1 }
    if b.ref_count - 1 = 0 then m2.deallocBlock block_id else some m2
  else none

/-- The loop of `BlockManager.deallocate` (over the reversed block table). -/
def deallocLoop : BlockManager → List Nat → Option BlockManager
  | m, [] => some m
  | m, bid :: rest => (deallocStep m bid).bind (fun m2 => deallocLoop m2 rest)

/-- `BlockManager.deallocate(seq)`. -/
def BlockManager.deallocate (m : BlockManager) (s : Sequence) :
    Option (BlockManager × Sequence) :=
  (deallocLoop m s.block_table.reverse).map
    (fun m2 => (m2, { s with num_cached_tokens := 0, block_table := [] }))

/-- `BlockManager.can_append(seq)`: `len(free) >= (len(seq) % block_size == 1)`
with the Python bool coerced to 0/1. -/
def BlockManager.can_append (m : BlockManager) (s : Sequence) : Bool :=
  (if s.num_tokens % m.block_size = 1 then 1 else 0) ≤ m.free_block_ids.length

/-- `BlockManager.may_append(seq)`: per-token incremental extension.
`block_table[-1]` on an empty table raises, as do the branch assertions and
`free_block_ids[0]` on an empty deque — all modelled by `none`. -/
def BlockManager.may_append (m : BlockManager) (s : Sequence) :
    Option (BlockManager × Sequence) :=
  match s.block_table.getLast? with
  | none => none
  | some lastId =>
    if lastId < m.blocks.length then
      let last_block := m.getBlock lastId
      if s.num_tokens % m.block_size = 1 then
        if last_block.hash ≠ -1 then
          match m.free_block_ids with
          | [] => none
          | bid :: _ =>
            (m.allocBlock bid).map
              (fun m2 => (m2, { s with block_table := s.block_table ++ [bid] }))
        else none
      else if s.num_tokens % m.block_size = 0 then
        if last_block.hash = -1 then
          let token_ids := s.block m.block_size (s.num_blocks m.block_size - 1)
          let pre : Int := if 1 < s.block_table.length then
              (m.getBlock (s.block_table.getD (s.block_table.length - 2) 0)).hash
            else -1
          let h := compute_hash token_ids pre
          some ({ m.setBlock lastId (last_block.update h token_ids) with
                  hash_to_block_id := dictInsert m.hash_to_block_id h last_block.block_id },
                s)
        else none
      else
        if last_block.hash = -1 then some (m, s) else none
    else none

/-! ### Basic facts about the content hash -/

theorem encTok_inj {a b : Int} (h : encTok a = encTok b) : a = b := by
  unfold encTok at h
  split_ifs at h <;> omega

theorem encList_inj : ∀ {l l' : List Int}, encList l = encList l' → l = l'
  | [], [], _ => rfl
  | [], _ :: _, h => by simp [encList] at h
  | _ :: _, [], h => by simp [encList] at h
  | a :: l, b :: l', h => by
    simp only [encList, Nat.add_right_cancel_iff, Nat.pair_eq_pair] at h
    rw [encTok_inj h.1, encList_inj h.2]

theorem compute_hash_nonneg (t : List Int) (p : Int) : 0 ≤ compute_hash t p :=
  Int.natCast_nonneg _

theorem compute_hash_ne_sentinel (t : List Int) (p : Int) : compute_hash t p ≠ -1 := by
  have := compute_hash_nonneg t p
  omega

theorem compute_hash_inj {t t' : List Int} {p p' : Int}
    (h : compute_hash t p = compute_hash t' p') : t = t' ∧ p = p' := by
  unfold compute_hash at h
  rw [Int.natCast_inj, Nat.pair_eq_pair] at h
  exact ⟨encList_inj h.2, encTok_inj h.1⟩

/-- The chained hash of logical block `j` of a token list: exactly the value
`h` carried through the loops of `allocate`/`may_append` when the blocks up
to `j` are full. -/
def chainH (bs : Nat) (t : List Int) : Nat → Int
  | 0 => compute_hash (blockChunk bs t 0) (-1)
  | j + 1 => compute_hash (blockChunk bs t (j + 1)) (chainH bs t j)

theorem chainH_nonneg (bs : Nat) (t : List Int) (j : Nat) : 0 ≤ chainH bs t j := by
  cases j <;> exact compute_hash_nonneg _ _

theorem chainH_ne_sentinel (bs : Nat) (t : List Int) (j : Nat) : chainH bs t j ≠ -1 := by
  have := chainH_nonneg bs t j
  omega

theorem chainH_depth_inj {bs : Nat} :
    ∀ {i j : Nat} {t u : List Int}, chainH bs t i = chainH bs u j → i = j
  | 0, 0, _, _, _ => rfl
  | 0, j + 1, t, u, h => by
    have h2 := (compute_hash_inj h).2
    have := chainH_nonneg bs u j
    omega
  | i + 1, 0, t, u, h => by
    have h2 := (compute_hash_inj h).2
    have := chainH_nonneg bs t i
    omega
  | i + 1, j + 1, t, u, h => by
    rw [chainH_depth_inj (compute_hash_inj h).2]

theorem blockChunk_eq_take_drop (bs : Nat) (t : List Int) (j : Nat) :
    blockChunk bs t j = (t.take ((j + 1) * bs)).drop (j * bs) := by
  rw [List.drop_take, blockChunk]
  congr 1
  rw [Nat.succ_mul]
  omega

theorem blockChunk_congr {bs : Nat} {t u : List Int} {j : Nat}
    (h : t.take ((j + 1) * bs) = u.take ((j + 1) * bs)) :
    blockChunk bs t j = blockChunk bs u j := by
  rw [blockChunk_eq_take_drop, blockChunk_eq_take_drop, h]

theorem take_congr_of_le {t u : List Int} {a b : Nat} (hab : a ≤ b)
    (h : t.take b = u.take b) : t.take a = u.take a := by
  have h2 := congrArg (List.take a) h
  rwa [List.take_take, List.take_take, Nat.min_eq_left hab] at h2

theorem chainH_congr {bs : Nat} :
    ∀ {j : Nat} {t u : List Int}, t.take ((j + 1) * bs) = u.take ((j + 1) * bs) →
      chainH bs t j = chainH bs u j
  | 0, t, u, h => by
    rw [chainH, chainH, blockChunk_congr h]
  | j + 1, t, u, h => by
    have hpre : t.take ((j + 1) * bs) = u.take ((j + 1) * bs) :=
      take_congr_of_le (Nat.mul_le_mul_right bs (by omega)) h
    rw [chainH, chainH, blockChunk_congr h, chainH_congr hpre]

theorem take_succ_chunk (bs : Nat) (t : List Int) (i : Nat) :
    t.take ((i + 1) * bs) = t.take (i * bs) ++ blockChunk bs t i := by
  rw [Nat.succ_mul, List.take_add, blockChunk]

theorem chainH_inj {bs : Nat} :
    ∀ {i j : Nat} {t u : List Int}, chainH bs t i = chainH bs u j →
      i = j ∧ t.take ((i + 1) * bs) = u.take ((i + 1) * bs)
  | i, j, t, u, h => by
    obtain rfl : i = j := chainH_depth_inj h
    refine ⟨rfl, ?_⟩
    induction i generalizing t u with
    | zero =>
      have := (compute_hash_inj (by exact h)).1
      rw [take_succ_chunk, take_succ_chunk]
      simpa [Nat.zero_mul] using this
    | succ i ih =>
      rw [chainH, chainH] at h
      obtain ⟨hchunk, hpre⟩ := compute_hash_inj h
      rw [take_succ_chunk bs t (i + 1), take_succ_chunk bs u (i + 1), hchunk, ih t u hpre]

/-! ### Basic facts about the dict model -/

theorem dictGet_nil (k : Int) : dictGet [] k = -1 := rfl

theorem dictGet_cons (k' : Int) (v : Nat) (m : List (Int × Nat)) (k : Int) :
    dictGet ((k', v) :: m) k = if k' = k then (v : Int) else dictGet m k := by
  unfold dictGet
  by_cases h : k' = k
  · rw [List.find?_cons_of_pos _ (by simpa using h), if_pos h]
  · rw [List.find?_cons_of_neg _ (by simpa using h), if_neg h]

theorem dictGet_filter_ne (m : List (Int × Nat)) {k k' : Int} (h : k ≠ k') :
    dictGet (m.filter (fun p => !(p.1 == k))) k' = dictGet m k' := by
  induction m with
  | nil => rfl
  | cons p m ih =>
    by_cases hp : p.1 = k
    · have : (fun p : Int × Nat => !(p.1 == k)) p = false := by simp [hp]
      rw [List.filter_cons_of_neg (by simp [this])]
      rw [show p = (p.1, p.2) from rfl, dictGet_cons, if_neg (by rw [hp]; exact h), ih]
    · rw [List.filter_cons_of_pos (by simp [hp])]
      rw [show p = (p.1, p.2) from rfl, dictGet_cons, dictGet_cons, ih]

theorem dictGet_insert (m : List (Int × Nat)) (k : Int) (v : Nat) (k' : Int) :
    dictGet (dictInsert m k v) k' = if k = k' then (v : Int) else dictGet m k' := by
  rw [dictInsert, dictGet_cons]
  by_cases h : k = k'
  · simp [h]
  · rw [if_neg h, if_neg h, dictGet_filter_ne _ h]

theorem dictGet_not_found {m : List (Int × Nat)} {k : Int}
    (h : ∀ p ∈ m, p.1 ≠ k) : dictGet m k = -1 := by
  induction m with
  | nil => rfl
  | cons p m ih =>
    rw [show p = (p.1, p.2) from rfl, dictGet_cons, if_neg (h p (by simp)),
      ih (fun q hq => h q (by simp [hq]))]

theorem dictGet_found {m : List (Int × Nat)} {k : Int}
    (h : dictGet m k ≠ -1) : ∃ p ∈ m, p.1 = k ∧ (p.2 : Int) = dictGet m k := by
  cases hf : m.find? (fun p => p.1 == k) with
  | none =>
    exfalso
    apply h
    unfold dictGet
    rw [hf]
  | some p =>
    have hm := List.mem_of_find?_eq_some hf
    have hp := List.find?_some hf
    simp only [beq_iff_eq] at hp
    refine ⟨p, hm, hp, ?_⟩
    unfold dictGet
    rw [hf]

theorem dictGet_nonneg_or {m : List (Int × Nat)} {k : Int} :
    0 ≤ dictGet m k ∨ dictGet m k = -1 := by
  by_cases h : dictGet m k = -1
  · exact Or.inr h
  · obtain ⟨p, _, _, hv⟩ := dictGet_found h
    left
    rw [← hv]
    exact Int.natCast_nonneg _

/-! ### Block-count arithmetic -/

/-- Number of logical blocks of a token count (the source formula). -/
def nbOf (bs n : Nat) : Nat := (n + bs - 1) / bs

/-- Number of full logical blocks of a token count. -/
def fbOf (bs n : Nat) : Nat := n / bs

theorem num_blocks_eq (bs : Nat) (s : Sequence) : s.num_blocks bs = nbOf bs s.num_tokens := rfl

theorem full_iff_lt_fb {bs : Nat} (hbs : 0 < bs) (n j : Nat) :
    (j + 1) * bs ≤ n ↔ j < fbOf bs n := by
  rw [fbOf, Nat.lt_iff_add_one_le, Nat.le_div_iff_mul_le hbs]

theorem nbOf_dvd {bs n : Nat} (hbs : 0 < bs) (h : n % bs = 0) : nbOf bs n = n / bs := by
  obtain ⟨q, rfl⟩ : ∃ q, n = q * bs :=
    ⟨n / bs, (Nat.div_mul_cancel (Nat.dvd_of_mod_eq_zero h)).symm⟩
  rw [nbOf, Nat.mul_div_cancel _ hbs, show q * bs + bs - 1 = (bs - 1) + q * bs by omega,
    Nat.add_mul_div_right _ _ hbs, Nat.div_eq_of_lt (by omega)]
  omega

theorem nbOf_not_dvd {bs n : Nat} (hbs : 0 < bs) (h : n % bs ≠ 0) : nbOf bs n = n / bs + 1 := by
  have hd := Nat.div_add_mod' n bs
  have hrlt : n % bs < bs := Nat.mod_lt _ hbs
  rw [nbOf, show n + bs - 1 = (n % bs - 1) + (n / bs + 1) * bs by rw [Nat.succ_mul]; omega,
    Nat.add_mul_div_right _ _ hbs, Nat.div_eq_of_lt (show n % bs - 1 < bs by omega)]
  omega

theorem fb_le_nb {bs : Nat} (hbs : 0 < bs) (n : Nat) : fbOf bs n ≤ nbOf bs n := by
  apply Nat.div_le_div_right
  omega

theorem nbOf_mono (bs : Nat) {a b : Nat} (h : a ≤ b) : nbOf bs a ≤ nbOf bs b := by
  apply Nat.div_le_div_right
  omega

theorem blockChunk_length (bs : Nat) (t : List Int) (j : Nat) :
    (blockChunk bs t j).length = min bs (t.length - j * bs) := by
  simp [blockChunk]

theorem blockChunk_length_eq_bs {bs : Nat} (hbs : 0 < bs) {t : List Int} {j : Nat} :
    (blockChunk bs t j).length = bs ↔ (j + 1) * bs ≤ t.length := by
  rw [blockChunk_length, Nat.succ_mul]
  omega

/-! ### The wire transfer protocol (claim C6) -/

/-- The bare object pickle constructs before calling `__setstate__`. -/
def blankSeq : Sequence := ⟨[], 0, 0, 0, 0, []⟩

/-- Modelled from the spec: one receive cycle of the wire contract for a
generating sequence.  The receiver — which per §6 already holds the prior
tokens from an earlier transfer and "only needs the delta" — reconstructs
the counts via `__setstate__` and appends the transferred most-recent token.
The transfer loop itself is not part of the sources under verification (only
`__getstate__`/`__setstate__` are); its shape follows §6 of the spec. -/
def recvStep (r : Sequence) (p : SeqState) : Option Sequence :=
  (r.setstate p).bind (fun r1 =>
    match p.2.2.2.2 with
    | Tail.single t => some (r1.appendToken t)
    | Tail.full _ => none)

/-- Modelled from the spec: the receiver consumes the per-step payloads in
order. -/
def recvAll : Sequence → List SeqState → Option Sequence
  | r, [] => some r
  | r, p :: rest => (recvStep r p).bind (fun r2 => recvAll r2 rest)

/-- The per-step payloads of a sender appending the completion tokens one at
a time, serializing (`__getstate__`) after each appended token. -/
def payloadChain : Sequence → List Int → List SeqState
  | _, [] => []
  | s, t :: rest => (s.appendToken t).getstate :: payloadChain (s.appendToken t) rest

theorem getstate_of_generating {s : Sequence} (h : s.num_prompt_tokens < s.num_tokens) :
    s.getstate = (s.num_tokens, s.num_prompt_tokens, s.num_cached_tokens, s.block_table,
      Tail.single s.last_token) := by
  unfold Sequence.getstate
  rw [if_neg]
  unfold Sequence.numCompletionTokens
  omega

theorem setstate_single {r : Sequence} {n np nc : Nat} {bt : List Nat} {t : Int}
    (h : np < n) :
    r.setstate (n, np, nc, bt, Tail.single t) =
      some ⟨r.token_ids, t, n, np, nc, bt⟩ := by
  unfold Sequence.setstate
  rw [if_neg]
  unfold Sequence.numCompletionTokens
  simp
  omega

theorem getstate_of_prompt {s : Sequence} (h : s.numCompletionTokens = 0) :
    s.getstate = (s.num_tokens, s.num_prompt_tokens, s.num_cached_tokens, s.block_table,
      Tail.full s.token_ids) := by
  unfold Sequence.getstate
  rw [if_pos h]

theorem setstate_full {r : Sequence} {n np nc : Nat} {bt : List Nat} {tids : List Int}
    (h : (n : Int) - (np : Int) = 0) :
    r.setstate (n, np, nc, bt, Tail.full tids) =
      some ⟨tids, r.last_token, n, np, nc, bt⟩ := by
  unfold Sequence.setstate
  rw [if_pos (by unfold Sequence.numCompletionTokens; exact h)]

theorem payloadChain_single : ∀ (C : List Int) (s : Sequence),
    s.num_prompt_tokens ≤ s.num_tokens →
    ∀ p ∈ payloadChain s C, ∃ t, p.2.2.2.2 = Tail.single t := by
  intro C
  induction C with
  | nil => intro s _ p hp; simp [payloadChain] at hp
  | cons t rest ih =>
    intro s hle p hp
    rw [payloadChain] at hp
    rcases List.mem_cons.mp hp with rfl | hmem
    · refine ⟨(s.appendToken t).last_token, ?_⟩
      rw [getstate_of_generating (by simp only [Sequence.appendToken]; omega)]
    · exact ih (s.appendToken t) (by simp only [Sequence.appendToken]; omega) p hmem

theorem recvAll_payloadChain (C : List Int) : ∀ (s r : Sequence),
    r.token_ids = s.token_ids → s.num_prompt_tokens ≤ s.num_tokens →
    ∃ rN, recvAll r (payloadChain s C) = some rN ∧
      rN.token_ids = (C.foldl Sequence.appendToken s).token_ids := by
  induction C with
  | nil => exact fun s r h _ => ⟨r, rfl, by simpa using h⟩
  | cons t rest ih =>
    intro s r h hle
    have hgen : (s.appendToken t).num_prompt_tokens < (s.appendToken t).num_tokens := by
      simp only [Sequence.appendToken]
      omega
    have hstep : recvStep r (s.appendToken t).getstate =
        some (Sequence.appendToken ⟨r.token_ids, t, (s.appendToken t).num_tokens,
          (s.appendToken t).num_prompt_tokens, (s.appendToken t).num_cached_tokens,
          (s.appendToken t).block_table⟩ t) := by
      rw [getstate_of_generating hgen, recvStep, setstate_single hgen]
      rfl
    obtain ⟨rN, hrun, htok⟩ := ih (s.appendToken t)
      (Sequence.appendToken ⟨r.token_ids, t, (s.appendToken t).num_tokens,
        (s.appendToken t).num_prompt_tokens, (s.appendToken t).num_cached_tokens,
        (s.appendToken t).block_table⟩ t)
      (by simp [Sequence.appendToken, h]) (by simp only [Sequence.appendToken]; omega)
    refine ⟨rN, ?_, htok⟩
    simp only [payloadChain, recvAll, hstep, Option.some_bind]
    exact hrun

/-- C6: the wire payload round-trips: a prompt-stage sequence reconstructs
with an identical token list, and a generating sequence is streamed as one
prompt-stage payload plus one single-token payload per generated token, the
receiver ending with the identical token list; every per-step payload
carries only a single token, never the token list. -/
theorem serialization_wire_contract :
    (∀ s : Sequence, s.numCompletionTokens = 0 →
      ∃ r, blankSeq.setstate s.getstate = some r ∧ r.token_ids = s.token_ids) ∧
    (∀ (P C : List Int) (s0 : Sequence), Sequence.init P = some s0 →
      ∃ r0 rN, blankSeq.setstate s0.getstate = some r0 ∧
        recvAll r0 (payloadChain s0 C) = some rN ∧
        rN.token_ids = (C.foldl Sequence.appendToken s0).token_ids ∧
        ∀ p ∈ payloadChain s0 C, ∃ t, p.2.2.2.2 = Tail.single t) := by
  constructor
  · intro s h
    rw [getstate_of_prompt h, setstate_full (by unfold Sequence.numCompletionTokens at h; exact h)]
    exact ⟨_, rfl, rfl⟩
  · intro P C s0 h0
    unfold Sequence.init at h0
    cases hl : P.getLast? with
    | none => rw [hl] at h0; exact absurd h0 (by simp)
    | some t0 =>
      rw [hl] at h0
      obtain rfl : (⟨P, t0, P.length, P.length, 0, []⟩ : Sequence) = s0 := by simpa using h0
      set s0 : Sequence := ⟨P, t0, P.length, P.length, 0, []⟩ with hs0
      have hc0 : s0.numCompletionTokens = 0 := by
        unfold Sequence.numCompletionTokens
        simp
      have hr0 : blankSeq.setstate s0.getstate =
          some ⟨P, blankSeq.last_token, P.length, P.length, 0, []⟩ := by
        rw [getstate_of_prompt hc0, setstate_full (by simp)]
      obtain ⟨rN, hrun, htok⟩ := recvAll_payloadChain C s0
        ⟨P, blankSeq.last_token, P.length, P.length, 0, []⟩ rfl (le_refl _)
      exact ⟨_, rN, hr0, hrun, htok, payloadChain_single C s0 (le_refl _)⟩

/-- C8: `can_append(seq)` is true exactly when the sequence's token count
modulo `block_size` is not 1 or the free-list is nonempty — i.e. it demands
a free block precisely in the case in which `may_append` would pop one. -/
theorem can_append_iff (m : BlockManager) (s : Sequence) :
    m.can_append s = true ↔
      (s.num_tokens % m.block_size ≠ 1 ∨ m.free_block_ids ≠ []) := by
  unfold BlockManager.can_append
  by_cases h : s.num_tokens % m.block_size = 1
  · rw [if_pos h]
    simp only [h, decide_eq_true_eq, ne_eq, not_true_eq_false, false_or]
    constructor
    · intro h2
      exact List.length_pos_iff_ne_nil.mp (by omega)
    · intro h2
      have := List.length_pos_iff_ne_nil.mpr h2
      omega
  · rw [if_neg h]
    simp [h]

/-- C10: constructing a `Sequence` from the empty token list fails (the
constructor reads `token_ids[-1]`), and every successfully constructed
sequence has at least one token and `last_token` equal to the final element
of the input list. -/
theorem sequence_ctor_nonempty :
    Sequence.init ([] : List Int) = none ∧
    ∀ (ts : List Int) (s : Sequence), Sequence.init ts = some s →
      ts ≠ [] ∧ 1 ≤ s.num_tokens ∧ ts.getLast? = some s.last_token := by
  refine ⟨rfl, ?_⟩
  intro ts s h
  unfold Sequence.init at h
  cases hl : ts.getLast? with
  | none => rw [hl] at h; exact absurd h (by simp)
  | some t =>
    rw [hl] at h
    obtain rfl : (⟨ts, t, ts.length, ts.length, 0, []⟩ : Sequence) = s := by simpa using h
    have hne : ts ≠ [] := by
      rintro rfl
      simp at hl
    refine ⟨hne, by simpa using List.length_pos_iff_ne_nil.mpr hne, ?_⟩
    rfl

/-! ### Generic characterizations of one `allocate` loop iteration -/

/-- The hash computed at the start of an `allocate` loop iteration. -/
def stepHash (bs : Nat) (st : AllocSt) (token_ids : List Int) : Int :=
  if token_ids.length = bs then compute_hash token_ids st.hsh else -1

theorem getBlock_set_self {m : BlockManager} {j : Nat} (h : j < m.blocks.length) (b : Block) :
    (m.setBlock j b).getBlock j = b := by
  unfold BlockManager.setBlock BlockManager.getBlock
  rw [List.getD_eq_getElem?_getD]
  simp [List.getElem?_set_self, h]

theorem getBlock_set_ne {m : BlockManager} {i j : Nat} (h : j ≠ i) (b : Block) :
    (m.setBlock j b).getBlock i = m.getBlock i := by
  unfold BlockManager.setBlock BlockManager.getBlock
  rw [List.getD_eq_getElem?_getD, List.getD_eq_getElem?_getD]
  rw [List.getElem?_set_ne h]

/-- The manager after a fresh binding of block `x` in a miss iteration whose
hash is `h` over content `tids` (`h = -1` when the logical block is partial):
`_allocate_block` then, when `h ≠ -1`, `update` and the index registration. -/
def missMgr (m : BlockManager) (x : Nat) (rest : List Nat) (h : Int) (tids : List Int) :
    BlockManager :=
  if h = -1 then
    ⟨m.block_size, m.blocks.set x (m.getBlock x).reset, m.hash_to_block_id, rest,
      insert x m.used_block_ids⟩
  else
    ⟨m.block_size, m.blocks.set x (((m.getBlock x).reset).update h tids),
      dictInsert m.hash_to_block_id h x, rest, insert x m.used_block_ids⟩

/-- The manager after a cache hit on the in-use block `bid`: reference bump,
then `update` and re-registration. -/
def hitUsedMgr (m : BlockManager) (bid : Nat) (h : Int) (tids : List Int) : BlockManager :=
  ⟨m.block_size,
    m.blocks.set bid ⟨(m.getBlock bid).block_id, (m.getBlock bid).ref_count + 1, h, tids⟩,
    dictInsert m.hash_to_block_id h bid, m.free_block_ids, m.used_block_ids⟩

/-- The manager after a cache hit on a block `bid` currently on the free list:
`_allocate_block` reclaims it, then `update` and re-registration. -/
def hitFreeMgr (m : BlockManager) (bid : Nat) (h : Int) (tids : List Int) : BlockManager :=
  ⟨m.block_size, m.blocks.set bid (((m.getBlock bid).reset).update h tids),
    dictInsert m.hash_to_block_id h bid, m.free_block_ids.erase bid,
    insert bid m.used_block_ids⟩

/-- A loop iteration on which the cache misses (either because the
`cache_miss` flag is already set, or because the lookup fails or disagrees in
content): the head of the free list is popped and freshly bound. -/
theorem allocStep_miss (bs : Nat) (st : AllocSt) (tids : List Int) (x : Nat) (rest : List Nat)
    (hmiss : st.cache_miss = true ∨
      dictGet st.mgr.hash_to_block_id (stepHash bs st tids) = -1 ∨
      (st.mgr.getBlock (dictGet st.mgr.hash_to_block_id (stepHash bs st tids)).toNat).token_ids
        ≠ tids)
    (hfree : st.mgr.free_block_ids = x :: rest)
    (hx : x < st.mgr.blocks.length)
    (href : (st.mgr.getBlock x).ref_count = 0) :
    allocStep bs st tids = some
      ⟨missMgr st.mgr x rest (stepHash bs st tids) tids,
       { st.seq with block_table := st.seq.block_table ++ [x] },
       stepHash bs st tids, true⟩ := by
  have hm : (st.cache_miss ||
      decide (dictGet st.mgr.hash_to_block_id (stepHash bs st tids) = -1) ||
      decide ((st.mgr.getBlock
        (dictGet st.mgr.hash_to_block_id (stepHash bs st tids)).toNat).token_ids ≠ tids)) =
      true := by
    rcases hmiss with h | h | h <;> simp [h]
  have halloc : st.mgr.allocBlock x = some
      (BlockManager.mk st.mgr.block_size (st.mgr.blocks.set x (st.mgr.getBlock x).reset)
        st.mgr.hash_to_block_id rest (insert x st.mgr.used_block_ids)) := by
    unfold BlockManager.allocBlock
    rw [if_pos ⟨hx, href, by rw [hfree]; exact List.mem_cons_self x rest⟩, hfree,
      List.erase_cons_head]
  simp only [allocStep]
  rw [show (if tids.length = bs then compute_hash tids st.hsh else -1) = stepHash bs st tids
      from rfl]
  rw [hm, hfree]
  rw [if_pos rfl]
  dsimp only
  rw [halloc]
  simp only [Option.map_some']
  unfold missMgr BlockManager.setBlock
  by_cases hs : stepHash bs st tids = -1
  · rw [if_neg (by simp [hs]), if_pos hs]
  · rw [if_pos (by simp [hs]), if_neg hs]
    have hgetM : (BlockManager.mk st.mgr.block_size
        (st.mgr.blocks.set x (st.mgr.getBlock x).reset)
        st.mgr.hash_to_block_id rest (insert x st.mgr.used_block_ids)).getBlock x =
        (st.mgr.getBlock x).reset := by
      unfold BlockManager.getBlock
      rw [List.getD_eq_getElem?_getD]
      simp [List.getElem?_set_self, hx]
    rw [hgetM]
    simp [List.set_set]

/-- A loop iteration that hits the cache on a block currently in the used
set: the block's reference count is bumped, the block re-finalized and the
sequence credited `block_size` cached tokens. -/
theorem allocStep_hit_used (bs : Nat) (st : AllocSt) (tids : List Int) (bid : Nat)
    (hflag : st.cache_miss = false)
    (hlook : dictGet st.mgr.hash_to_block_id (stepHash bs st tids) = (bid : Int))
    (htok : (st.mgr.getBlock bid).token_ids = tids)
    (hused : bid ∈ st.mgr.used_block_ids)
    (hsent : stepHash bs st tids ≠ -1)
    (hbid : bid < st.mgr.blocks.length) :
    allocStep bs st tids = some
      ⟨hitUsedMgr st.mgr bid (stepHash bs st tids) tids,
       { st.seq with num_cached_tokens := st.seq.num_cached_tokens + bs,
                     block_table := st.seq.block_table ++ [bid] },
       stepHash bs st tids, false⟩ := by
  have hm : (st.cache_miss ||
      decide (dictGet st.mgr.hash_to_block_id (stepHash bs st tids) = -1) ||
      decide ((st.mgr.getBlock
        (dictGet st.mgr.hash_to_block_id (stepHash bs st tids)).toNat).token_ids ≠ tids)) =
      false := by
    rw [hflag, hlook]
    have h1 : ((bid : Int) = -1) = False := eq_false (by omega)
    simp [htok, h1]
  simp only [allocStep]
  rw [show (if tids.length = bs then compute_hash tids st.hsh else -1) = stepHash bs st tids
      from rfl]
  rw [hm, hlook]
  rw [if_neg (by simp)]
  simp only [Int.toNat_natCast]
  rw [if_pos hused]
  simp only [Option.map_some']
  rw [if_pos hsent]
  unfold hitUsedMgr BlockManager.setBlock
  have hgetM : (BlockManager.mk st.mgr.block_size
      (st.mgr.blocks.set bid
        ⟨(st.mgr.getBlock bid).block_id, (st.mgr.getBlock bid).ref_count + 1,
         (st.mgr.getBlock bid).hash, (st.mgr.getBlock bid).token_ids⟩)
      st.mgr.hash_to_block_id st.mgr.free_block_ids st.mgr.used_block_ids).getBlock bid =
      ⟨(st.mgr.getBlock bid).block_id, (st.mgr.getBlock bid).ref_count + 1,
       (st.mgr.getBlock bid).hash, (st.mgr.getBlock bid).token_ids⟩ := by
    unfold BlockManager.getBlock
    rw [List.getD_eq_getElem?_getD]
    simp [List.getElem?_set_self, hbid]
  rw [hgetM]
  simp [List.set_set, Block.update]

/-- A loop iteration that hits the cache on a block whose id sits on the free
list (its previous holder released it, its content survives): the block is
reclaimed from the free list by `_allocate_block`, re-finalized, and the
sequence still credits `block_size` cached tokens. -/
theorem allocStep_hit_free (bs : Nat) (st : AllocSt) (tids : List Int) (bid : Nat)
    (hflag : st.cache_miss = false)
    (hlook : dictGet st.mgr.hash_to_block_id (stepHash bs st tids) = (bid : Int))
    (htok : (st.mgr.getBlock bid).token_ids = tids)
    (hnotused : bid ∉ st.mgr.used_block_ids)
    (hfree : bid ∈ st.mgr.free_block_ids)
    (href : (st.mgr.getBlock bid).ref_count = 0)
    (hsent : stepHash bs st tids ≠ -1)
    (hbid : bid < st.mgr.blocks.length) :
    allocStep bs st tids = some
      ⟨hitFreeMgr st.mgr bid (stepHash bs st tids) tids,
       { st.seq with num_cached_tokens := st.seq.num_cached_tokens + bs,
                     block_table := st.seq.block_table ++ [bid] },
       stepHash bs st tids, false⟩ := by
  have hm : (st.cache_miss ||
      decide (dictGet st.mgr.hash_to_block_id (stepHash bs st tids) = -1) ||
      decide ((st.mgr.getBlock
        (dictGet st.mgr.hash_to_block_id (stepHash bs st tids)).toNat).token_ids ≠ tids)) =
      false := by
    rw [hflag, hlook]
    have h1 : ((bid : Int) = -1) = False := eq_false (by omega)
    simp [htok, h1]
  have halloc : st.mgr.allocBlock bid = some
      (BlockManager.mk st.mgr.block_size (st.mgr.blocks.set bid (st.mgr.getBlock bid).reset)
        st.mgr.hash_to_block_id (st.mgr.free_block_ids.erase bid)
        (insert bid st.mgr.used_block_ids)) := by
    unfold BlockManager.allocBlock
    rw [if_pos ⟨hbid, href, hfree⟩]
  simp only [allocStep]
  rw [show (if tids.length = bs then compute_hash tids st.hsh else -1) = stepHash bs st tids
      from rfl]
  rw [hm, hlook]
  rw [if_neg (by simp)]
  simp only [Int.toNat_natCast]
  rw [if_neg hnotused]
  rw [halloc]
  simp only [Option.map_some']
  rw [if_pos hsent]
  unfold hitFreeMgr BlockManager.setBlock
  have hgetM : (BlockManager.mk st.mgr.block_size
      (st.mgr.blocks.set bid (st.mgr.getBlock bid).reset)
      st.mgr.hash_to_block_id (st.mgr.free_block_ids.erase bid)
      (insert bid st.mgr.used_block_ids)).getBlock bid =
      (st.mgr.getBlock bid).reset := by
    unfold BlockManager.getBlock
    rw [List.getD_eq_getElem?_getD]
    simp [List.getElem?_set_self, hbid]
  rw [hgetM]
  simp [List.set_set]

/-! ### The canonical state reached by allocating into a fresh manager -/

/-- Block `j` of the pool after the first `a` logical blocks of token list
`t` have been freshly bound (block `j` carries content and hash only when
logical block `j` is full). -/
def freshBlockF (bs : Nat) (t : List Int) (a j : Nat) : Block :=
  if j < a then
    if (j + 1) * bs ≤ t.length then ⟨j, 1, chainH bs t j, blockChunk bs t j⟩
    else ⟨j, 1, -1, []⟩
  else ⟨j, 0, -1, []⟩

/-- The hash index after the first `c` (full) logical blocks of `t` have been
registered, most recent first. -/
def freshMap (bs : Nat) (t : List Int) (c : Nat) : List (Int × Nat) :=
  ((List.range c).map (fun j => (chainH bs t j, j))).reverse

/-- The manager after the first `i` logical blocks of `t` have been freshly
bound into an initially empty pool of `N` blocks. -/
def freshMgr (N bs : Nat) (t : List Int) (i : Nat) : BlockManager :=
  ⟨bs, (List.range N).map (freshBlockF bs t i),
   freshMap bs t (min i (fbOf bs t.length)),
   List.range' i (N - i), Finset.range i⟩

/-- The running hash after the first `i` logical blocks have been processed. -/
def freshHsh (bs : Nat) (t : List Int) (i : Nat) : Int :=
  if i = 0 then -1 else if i * bs ≤ t.length then chainH bs t (i - 1) else -1

/-- The whole loop state after `i` iterations of `allocate` on a fresh pool. -/
def freshSt (N bs : Nat) (s : Sequence) (i : Nat) : AllocSt :=
  ⟨freshMgr N bs s.token_ids i, { s with block_table := List.range i },
   freshHsh bs s.token_ids i, decide (0 < i)⟩

theorem freshMap_succ (bs : Nat) (t : List Int) (c : Nat) :
    freshMap bs t (c + 1) = (chainH bs t c, c) :: freshMap bs t c := by
  unfold freshMap
  rw [List.range_succ, List.map_append, List.reverse_append]
  rfl

theorem freshMap_mem {bs : Nat} {t : List Int} {c : Nat} {p : Int × Nat} :
    p ∈ freshMap bs t c ↔ ∃ j, j < c ∧ p = (chainH bs t j, j) := by
  unfold freshMap
  simp only [List.mem_reverse, List.mem_map, List.mem_range]
  constructor
  · rintro ⟨j, hj, rfl⟩
    exact ⟨j, hj, rfl⟩
  · rintro ⟨j, hj, rfl⟩
    exact ⟨j, hj, rfl⟩

theorem dictGet_freshMap_self {bs : Nat} {t : List Int} {c j : Nat} (h : j < c) :
    dictGet (freshMap bs t c) (chainH bs t j) = (j : Int) := by
  induction c with
  | zero => omega
  | succ c ih =>
    rw [freshMap_succ, dictGet_cons]
    by_cases hjc : j = c
    · subst hjc
      rw [if_pos rfl]
    · rw [if_neg (fun he => hjc (chainH_depth_inj he).symm)]
      exact ih (by omega)

theorem dictGet_freshMap_none {bs : Nat} {t : List Int} {c : Nat} {k : Int}
    (h : ∀ j, j < c → k ≠ chainH bs t j) : dictGet (freshMap bs t c) k = -1 := by
  apply dictGet_not_found
  intro p hp
  obtain ⟨j, hj, rfl⟩ := freshMap_mem.mp hp
  exact fun he => h j hj he.symm

/-- Reading a block of a manager whose pool is `(List.range N).map f`. -/
theorem getBlock_map_range {N : Nat} (bsz : Nat) (f : Nat → Block) (mp : List (Int × Nat))
    (fr : List Nat) (us : Finset Nat) {j : Nat} (h : j < N) :
    (BlockManager.mk bsz ((List.range N).map f) mp fr us).getBlock j = f j := by
  unfold BlockManager.getBlock
  rw [List.getD_eq_getElem?_getD]
  simp [List.getElem?_map, List.getElem?_range, h]

theorem set_map_range {N j : Nat} (f : Nat → Block) (b : Block) (h : j < N) :
    ((List.range N).map f).set j b =
      (List.range N).map (fun x => if x = j then b else f x) := by
  apply List.ext_getElem?
  intro i
  by_cases hiN : i < N
  · by_cases hij : i = j
    · subst hij
      rw [List.getElem?_set_self (by simpa using hiN)]
      simp [List.getElem?_map, List.getElem?_range, hiN]
    · rw [List.getElem?_set_ne (fun he => hij he.symm)]
      simp [List.getElem?_map, List.getElem?_range, hiN, hij]
  · have h1 : ((List.range N).map f).length ≤ i := by simpa using Nat.le_of_not_lt hiN
    rw [List.getElem?_eq_none (by simpa using h1), List.getElem?_eq_none (by simpa using hiN)]

theorem freshBlockF_point (bs : Nat) (t : List Int) (i x : Nat) :
    (if x = i then
        (if (i + 1) * bs ≤ t.length then (⟨i, 1, chainH bs t i, blockChunk bs t i⟩ : Block)
         else ⟨i, 1, -1, []⟩)
      else freshBlockF bs t i x) = freshBlockF bs t (i + 1) x := by
  unfold freshBlockF
  by_cases hx : x = i
  · subst hx
    rw [if_pos rfl, if_pos (show x < x + 1 by omega)]
  · rw [if_neg hx]
    by_cases hlt : x < i
    · rw [if_pos hlt, if_pos (show x < i + 1 by omega)]
    · rw [if_neg hlt, if_neg (show ¬ x < i + 1 by omega)]

theorem chainH_step {bs : Nat} {t : List Int} {i : Nat} (h : i * bs ≤ t.length) :
    compute_hash (blockChunk bs t i) (freshHsh bs t i) = chainH bs t i := by
  cases i with
  | zero => rw [freshHsh, if_pos rfl, chainH]
  | succ j =>
    rw [freshHsh, if_neg (by omega), if_pos h, chainH]
    rfl

theorem stepHash_fresh {N bs : Nat} {s : Sequence} {i : Nat} (hbs : 0 < bs) :
    stepHash bs (freshSt N bs s i) (s.block bs i) = freshHsh bs s.token_ids (i + 1) := by
  unfold stepHash Sequence.block
  by_cases hfull : (i + 1) * bs ≤ s.token_ids.length
  · rw [if_pos ((blockChunk_length_eq_bs hbs).mpr hfull)]
    show compute_hash (blockChunk bs s.token_ids i) (freshHsh bs s.token_ids i) = _
    rw [chainH_step (le_trans (Nat.mul_le_mul_right bs (by omega)) hfull),
      freshHsh, if_neg (by omega), if_pos hfull, Nat.add_sub_cancel]
  · rw [if_neg (fun hc => hfull ((blockChunk_length_eq_bs hbs).mp hc)),
      freshHsh, if_neg (by omega), if_neg hfull]

theorem freshSt_step {N bs : Nat} {s : Sequence} {i : Nat} (hbs : 0 < bs)
    (hi : i < nbOf bs s.token_ids.length) (hN : nbOf bs s.token_ids.length ≤ N) :
    allocStep bs (freshSt N bs s i) (s.block bs i) = some (freshSt N bs s (i + 1)) := by
  have hiN : i < N := by omega
  have hfree : (freshSt N bs s i).mgr.free_block_ids =
      i :: List.range' (i + 1) (N - (i + 1)) := by
    show List.range' i (N - i) = _
    rw [show N - i = (N - (i + 1)) + 1 by omega, List.range'_succ]
  have hx : i < (freshSt N bs s i).mgr.blocks.length := by
    show i < ((List.range N).map (freshBlockF bs s.token_ids i)).length
    simpa using hiN
  have hget : (freshSt N bs s i).mgr.getBlock i = ⟨i, 0, -1, []⟩ := by
    show (freshMgr N bs s.token_ids i).getBlock i = _
    unfold freshMgr
    rw [getBlock_map_range _ _ _ _ _ hiN, freshBlockF, if_neg (by omega)]
  have hmiss : (freshSt N bs s i).cache_miss = true ∨
      dictGet (freshSt N bs s i).mgr.hash_to_block_id
        (stepHash bs (freshSt N bs s i) (s.block bs i)) = -1 ∨
      ((freshSt N bs s i).mgr.getBlock
        (dictGet (freshSt N bs s i).mgr.hash_to_block_id
          (stepHash bs (freshSt N bs s i) (s.block bs i))).toNat).token_ids ≠ s.block bs i := by
    rcases Nat.eq_zero_or_pos i with rfl | hpos
    · right; left
      show dictGet (freshMap bs s.token_ids (min 0 (fbOf bs s.token_ids.length))) _ = -1
      rw [Nat.min_comm, Nat.min_zero]
      rfl
    · left
      show decide (0 < i) = true
      simpa using hpos
  have hstep := allocStep_miss bs (freshSt N bs s i) (s.block bs i) i
    (List.range' (i + 1) (N - (i + 1))) hmiss hfree hx (by rw [hget])
  rw [hstep, stepHash_fresh hbs]
  clear hstep
  congr 1
  have hseq : ({ (freshSt N bs s i).seq with
      block_table := (freshSt N bs s i).seq.block_table ++ [i] } : Sequence) =
      (freshSt N bs s (i + 1)).seq := by
    show ({ s with block_table := List.range i ++ [i] } : Sequence) = _
    rw [← List.range_succ]
    rfl
  have hmgr : missMgr (freshSt N bs s i).mgr i (List.range' (i + 1) (N - (i + 1)))
      (freshHsh bs s.token_ids (i + 1)) (s.block bs i) = freshMgr N bs s.token_ids (i + 1) := by
    unfold missMgr
    by_cases hfull : (i + 1) * bs ≤ s.token_ids.length
    · rw [if_neg (by
        rw [freshHsh, if_neg (by omega), if_pos hfull, Nat.add_sub_cancel]
        exact chainH_ne_sentinel bs s.token_ids i)]
      show BlockManager.mk bs _ _ _ _ = _
      rw [hget]
      unfold freshMgr
      congr 1
      · show ((List.range N).map (freshBlockF bs s.token_ids i)).set i _ =
          (List.range N).map (freshBlockF bs s.token_ids (i + 1))
        rw [set_map_range _ _ hiN]
        apply List.map_congr_left
        intro x _
        rw [← freshBlockF_point bs s.token_ids i x]
        by_cases hx2 : x = i
        · rw [if_pos hx2, if_pos hx2, if_pos hfull]
          rw [freshHsh, if_neg (by omega), if_pos hfull]
          rfl
        · rw [if_neg hx2, if_neg hx2]
      · show dictInsert (freshMap bs s.token_ids (min i (fbOf bs s.token_ids.length)))
            (freshHsh bs s.token_ids (i + 1)) i = _
        have hif : i < fbOf bs s.token_ids.length :=
          (full_iff_lt_fb hbs s.token_ids.length i).mp hfull
        rw [Nat.min_eq_left (by omega), Nat.min_eq_left (by omega),
          freshHsh, if_neg (by omega), if_pos hfull]
        show dictInsert (freshMap bs s.token_ids i) (chainH bs s.token_ids i) i = _
        rw [freshMap_succ, dictInsert]
        congr 1
        apply List.filter_eq_self.mpr
        intro p hp
        obtain ⟨j, hj, rfl⟩ := freshMap_mem.mp hp
        simp only [Bool.not_eq_true']
        rw [beq_eq_false_iff_ne]
        exact fun he => absurd (chainH_depth_inj he) (by omega)
      · exact (Finset.range_succ).symm
    · rw [if_pos (by rw [freshHsh, if_neg (by omega), if_neg hfull])]
      show BlockManager.mk bs _ _ _ _ = _
      rw [hget]
      unfold freshMgr
      congr 1
      · show ((List.range N).map (freshBlockF bs s.token_ids i)).set i _ =
          (List.range N).map (freshBlockF bs s.token_ids (i + 1))
        rw [set_map_range _ _ hiN]
        apply List.map_congr_left
        intro x _
        rw [← freshBlockF_point bs s.token_ids i x]
        by_cases hx2 : x = i
        · rw [if_pos hx2, if_pos hx2, if_neg hfull]
          rfl
        · rw [if_neg hx2, if_neg hx2]
      · show freshMap bs s.token_ids (min i (fbOf bs s.token_ids.length)) =
            freshMap bs s.token_ids (min (i + 1) (fbOf bs s.token_ids.length))
        have hif : ¬ i < fbOf bs s.token_ids.length :=
          fun hc => hfull ((full_iff_lt_fb hbs s.token_ids.length i).mpr hc)
        rw [Nat.min_eq_right (by omega), Nat.min_eq_right (by omega)]
      · exact (Finset.range_succ).symm
  rw [hmgr, hseq]
  show AllocSt.mk _ _ _ true = _
  unfold freshSt
  congr 1
  simp

theorem freshSt_loop {N bs : Nat} {s : Sequence} (hbs : 0 < bs)
    (hN : nbOf bs s.token_ids.length ≤ N) :
    ∀ (k i : Nat), i + k = nbOf bs s.token_ids.length →
    allocLoop bs (freshSt N bs s i) ((List.range' i k).map (s.block bs)) =
      some (freshSt N bs s (nbOf bs s.token_ids.length)) := by
  intro k
  induction k with
  | zero =>
    intro i hik
    obtain rfl : i = nbOf bs s.token_ids.length := by omega
    rfl
  | succ k ih =>
    intro i hik
    rw [List.range'_succ, List.map_cons, allocLoop, freshSt_step hbs (by omega) hN,
      Option.some_bind]
    exact ih (i + 1) (by omega)

/-- Allocating any sequence into a freshly initialized manager binds its
logical blocks to the pool ids `0, 1, 2, …` in order and leaves the manager
in the canonical state `freshMgr`. -/
theorem allocate_fresh {N bs : Nat} {s : Sequence} (hbs : 0 < bs)
    (htab : s.block_table = []) (hlen : s.num_tokens = s.token_ids.length)
    (hN : s.num_blocks bs ≤ N) :
    (BlockManager.init N bs).allocate s =
      some (freshMgr N bs s.token_ids (nbOf bs s.token_ids.length),
            { s with block_table := List.range (nbOf bs s.token_ids.length) }) := by
  have hnb : s.num_blocks bs = nbOf bs s.token_ids.length := by
    rw [num_blocks_eq, hlen]
  rw [hnb] at hN
  have hinit : (⟨BlockManager.init N bs, s, -1, false⟩ : AllocSt) = freshSt N bs s 0 := by
    unfold freshSt freshMgr BlockManager.init
    congr 1
    · congr 1
      · rw [Nat.zero_min]
        rfl
      · rw [Nat.sub_zero]
        exact List.range_eq_range' N
    · show s = { s with block_table := List.range 0 }
      rw [show List.range 0 = ([] : List Nat) from rfl, ← htab]
  have hlb : logicalBlocks ((BlockManager.init N bs).block_size) s =
      (List.range' 0 (nbOf bs s.token_ids.length)).map (s.block bs) := by
    show logicalBlocks bs s = _
    unfold logicalBlocks
    rw [List.range_eq_range', hnb]
  unfold BlockManager.allocate
  rw [if_pos htab, hlb, hinit]
  rw [show (BlockManager.init N bs).block_size = bs from rfl]
  rw [freshSt_loop hbs hN (nbOf bs s.token_ids.length) 0 (by omega)]
  rfl

theorem missMgr_free (m : BlockManager) (x : Nat) (r : List Nat) (h : Int) (t : List Int) :
    (missMgr m x r h t).free_block_ids = r := by
  unfold missMgr
  split <;> rfl

theorem missMgr_block_size (m : BlockManager) (x : Nat) (r : List Nat) (h : Int) (t : List Int) :
    (missMgr m x r h t).block_size = m.block_size := by
  unfold missMgr
  split <;> rfl

theorem missMgr_blocks_length (m : BlockManager) (x : Nat) (r : List Nat) (h : Int)
    (t : List Int) : (missMgr m x r h t).blocks.length = m.blocks.length := by
  unfold missMgr
  split <;> simp

theorem missMgr_getBlock_ne (m : BlockManager) (x : Nat) (r : List Nat) (h : Int)
    (t : List Int) {i : Nat} (hne : i ≠ x) :
    (missMgr m x r h t).getBlock i = m.getBlock i := by
  unfold missMgr
  split <;>
  · show (BlockManager.mk _ (m.blocks.set x _) _ _ _).getBlock i = _
    unfold BlockManager.getBlock
    rw [List.getD_eq_getElem?_getD, List.getElem?_set_ne (fun he => hne he.symm),
      ← List.getD_eq_getElem?_getD]

/-- Once the `cache_miss` flag is set, the rest of the `allocate` pass binds
every remaining logical block to successive blocks popped from the front of
the free list, crediting no cached tokens — regardless of what the hash
index contains. -/
theorem allocLoop_missRun (bs : Nat) :
    ∀ (L : List (List Int)) (st : AllocSt), st.cache_miss = true →
    L.length ≤ st.mgr.free_block_ids.length → st.mgr.free_block_ids.Nodup →
    (∀ id ∈ st.mgr.free_block_ids, id < st.mgr.blocks.length ∧
      (st.mgr.getBlock id).ref_count = 0) →
    ∃ st2, allocLoop bs st L = some st2 ∧
      st2.seq.block_table = st.seq.block_table ++ st.mgr.free_block_ids.take L.length ∧
      st2.seq.num_cached_tokens = st.seq.num_cached_tokens ∧
      st2.seq.token_ids = st.seq.token_ids ∧
      st2.seq.num_tokens = st.seq.num_tokens ∧
      st2.cache_miss = true ∧
      st2.mgr.free_block_ids = st.mgr.free_block_ids.drop L.length := by
  intro L
  induction L with
  | nil =>
    intro st hflag _ _ _
    exact ⟨st, rfl, by simp, rfl, rfl, rfl, hflag, by simp⟩
  | cons tids rest ih =>
    intro st hflag hlen hnd hids
    cases hfree : st.mgr.free_block_ids with
    | nil => rw [hfree] at hlen; simp at hlen
    | cons x xs =>
      obtain ⟨hxlt, hxref⟩ := hids x (by rw [hfree]; exact List.mem_cons_self x xs)
      have hstep := allocStep_miss bs st tids x xs (Or.inl hflag) hfree hxlt hxref
      have hnd' : xs.Nodup := by
        rw [hfree] at hnd
        exact hnd.of_cons
      have hxnot : x ∉ xs := by
        rw [hfree] at hnd
        exact (List.nodup_cons.mp hnd).1
      obtain ⟨st2, hrun, htab, hcache, htok, hnum, hflag2, hfree2⟩ := ih
        ⟨missMgr st.mgr x xs (stepHash bs st tids) tids,
         { st.seq with block_table := st.seq.block_table ++ [x] },
         stepHash bs st tids, true⟩ rfl
        (by show rest.length ≤ (missMgr st.mgr x xs (stepHash bs st tids) tids).free_block_ids.length
            rw [missMgr_free]
            rw [hfree] at hlen
            simpa using hlen)
        (by show (missMgr st.mgr x xs (stepHash bs st tids) tids).free_block_ids.Nodup
            rw [missMgr_free]
            exact hnd')
        (by
          intro id hid
          rw [show (AllocSt.mk (missMgr st.mgr x xs (stepHash bs st tids) tids)
              { st.seq with block_table := st.seq.block_table ++ [x] }
              (stepHash bs st tids) true).mgr =
              missMgr st.mgr x xs (stepHash bs st tids) tids from rfl] at hid ⊢
          rw [missMgr_free] at hid
          have hne : id ≠ x := fun he => hxnot (he ▸ hid)
          rw [missMgr_blocks_length, missMgr_getBlock_ne _ _ _ _ _ hne]
          exact hids id (by rw [hfree]; exact List.mem_cons_of_mem x hid))
      refine ⟨st2, ?_, ?_, ?_, ?_, ?_, hflag2, ?_⟩
      · rw [allocLoop, hstep, Option.some_bind]
        exact hrun
      · rw [htab]
        rw [show (AllocSt.mk (missMgr st.mgr x xs (stepHash bs st tids) tids)
              { st.seq with block_table := st.seq.block_table ++ [x] }
              (stepHash bs st tids) true).seq.block_table = st.seq.block_table ++ [x] from rfl,
          show (AllocSt.mk (missMgr st.mgr x xs (stepHash bs st tids) tids)
              { st.seq with block_table := st.seq.block_table ++ [x] }
              (stepHash bs st tids) true).mgr.free_block_ids = xs
            from missMgr_free st.mgr x xs (stepHash bs st tids) tids,
          List.length_cons, List.take_succ_cons, List.append_assoc]
        rfl
      · rw [hcache]
      · rw [htok]
      · rw [hnum]
      · rw [hfree2,
          show (AllocSt.mk (missMgr st.mgr x xs (stepHash bs st tids) tids)
              { st.seq with block_table := st.seq.block_table ++ [x] }
              (stepHash bs st tids) true).mgr.free_block_ids = xs
            from missMgr_free st.mgr x xs (stepHash bs st tids) tids]
        rfl

/-- C2: during one `allocate` pass, once any logical block misses the cache
(the `cache_miss` flag is set), every later logical block of the pass is
bound to a freshly popped free block — each step consumes the head of the
free list and sets the flag again, and the whole remaining run binds exactly
the next `|L|` free ids, crediting no cached tokens.  The statement
quantifies over arbitrary hash-index contents, so it covers in particular a
later block whose own chained hash is present with byte-identical stored
content, and the instance in which logical block 0 of a new sequence misses
while logical block 1 would hash-match a pre-existing block. -/
theorem alloc_forced_miss_after_first_miss (bs : Nat) :
    (∀ (st : AllocSt) (tids : List Int) (st2 : AllocSt),
      st.cache_miss = true → allocStep bs st tids = some st2 →
      st2.cache_miss = true ∧
      ∃ x rest, st.mgr.free_block_ids = x :: rest ∧
        st2.seq.block_table = st.seq.block_table ++ [x] ∧
        st2.mgr.free_block_ids = rest ∧
        st2.seq.num_cached_tokens = st.seq.num_cached_tokens) ∧
    (∀ (L : List (List Int)) (st : AllocSt), st.cache_miss = true →
      L.length ≤ st.mgr.free_block_ids.length → st.mgr.free_block_ids.Nodup →
      (∀ id ∈ st.mgr.free_block_ids, id < st.mgr.blocks.length ∧
        (st.mgr.getBlock id).ref_count = 0) →
      ∃ st2, allocLoop bs st L = some st2 ∧
        st2.seq.block_table = st.seq.block_table ++ st.mgr.free_block_ids.take L.length ∧
        st2.seq.num_cached_tokens = st.seq.num_cached_tokens ∧
        st2.cache_miss = true) := by
  constructor
  · intro st tids st2 hflag heq
    cases hfree : st.mgr.free_block_ids with
    | nil =>
      exfalso
      have hnone : allocStep bs st tids = none := by
        have hm : (st.cache_miss ||
            decide (dictGet st.mgr.hash_to_block_id
              (if tids.length = bs then compute_hash tids st.hsh else -1) = -1) ||
            decide ((st.mgr.getBlock
              (dictGet st.mgr.hash_to_block_id
                (if tids.length = bs then compute_hash tids st.hsh else -1)).toNat).token_ids
              ≠ tids)) = true := by
          simp [hflag]
        simp only [allocStep]
        rw [hm]
        simp [hfree]
      rw [hnone] at heq
      exact Option.noConfusion heq
    | cons x xs =>
      have hcore : ∃ m2, st.mgr.allocBlock x = some m2 := by
        cases halloc : st.mgr.allocBlock x with
        | some m2 => exact ⟨m2, rfl⟩
        | none =>
          exfalso
          have hnone : allocStep bs st tids = none := by
            have hm : (st.cache_miss ||
                decide (dictGet st.mgr.hash_to_block_id
                  (if tids.length = bs then compute_hash tids st.hsh else -1) = -1) ||
                decide ((st.mgr.getBlock
                  (dictGet st.mgr.hash_to_block_id
                    (if tids.length = bs then compute_hash tids st.hsh else -1)).toNat).token_ids
                  ≠ tids)) = true := by
              simp [hflag]
            simp only [allocStep]
            rw [hm]
            simp [hfree, halloc]
          rw [hnone] at heq
          exact Option.noConfusion heq
      obtain ⟨m2, halloc⟩ := hcore
      have hguard : x < st.mgr.blocks.length ∧ (st.mgr.getBlock x).ref_count = 0 ∧
          x ∈ st.mgr.free_block_ids := by
        by_contra hcon
        unfold BlockManager.allocBlock at halloc
        rw [if_neg hcon] at halloc
        exact Option.noConfusion halloc
      have hstep := allocStep_miss bs st tids x xs (Or.inl hflag) hfree hguard.1 hguard.2.1
      rw [hstep] at heq
      obtain rfl := Option.some.inj heq
      exact ⟨rfl, x, xs, rfl, rfl, missMgr_free _ _ _ _ _, rfl⟩
  · intro L st hflag hlen hnd hids
    obtain ⟨st2, hrun, htab, hcache, _, _, hflag2, _⟩ :=
      allocLoop_missRun bs L st hflag hlen hnd hids
    exact ⟨st2, hrun, htab, hcache, hflag2⟩

/-- C9: when the hash index maps a full logical block's chained hash to a
block id currently on the free list (reference count 0) whose stored token
content is byte-identical, and no earlier block of the pass has missed, the
`allocate` iteration reclaims exactly that id from the free list, moves it
to the used set with reference count 1, credits `block_size` cached tokens,
and appends the id to the block table — exactly as for a hit on an in-use
block. -/
theorem cache_hit_on_freed_block (bs : Nat) (st : AllocSt) (tids : List Int) (bid : Nat)
    (hflag : st.cache_miss = false)
    (hlook : dictGet st.mgr.hash_to_block_id (stepHash bs st tids) = (bid : Int))
    (htok : (st.mgr.getBlock bid).token_ids = tids)
    (hnotused : bid ∉ st.mgr.used_block_ids)
    (hfree : bid ∈ st.mgr.free_block_ids)
    (href : (st.mgr.getBlock bid).ref_count = 0)
    (hsent : stepHash bs st tids ≠ -1)
    (hbid : bid < st.mgr.blocks.length) :
    ∃ st2, allocStep bs st tids = some st2 ∧
      st2.mgr.free_block_ids = st.mgr.free_block_ids.erase bid ∧
      st2.mgr.used_block_ids = insert bid st.mgr.used_block_ids ∧
      (st2.mgr.getBlock bid).ref_count = 1 ∧
      (st2.mgr.getBlock bid).hash = stepHash bs st tids ∧
      (st2.mgr.getBlock bid).token_ids = tids ∧
      st2.seq.num_cached_tokens = st.seq.num_cached_tokens + bs ∧
      st2.seq.block_table = st.seq.block_table ++ [bid] ∧
      st2.cache_miss = false := by
  have hstep := allocStep_hit_free bs st tids bid hflag hlook htok hnotused hfree href
    hsent hbid
  have hget : (hitFreeMgr st.mgr bid (stepHash bs st tids) tids).getBlock bid =
      ⟨(st.mgr.getBlock bid).block_id, 1, stepHash bs st tids, tids⟩ := by
    unfold hitFreeMgr BlockManager.getBlock
    rw [List.getD_eq_getElem?_getD]
    simp only [List.getElem?_set_self (by simpa using hbid), Option.getD_some]
    rfl
  exact ⟨_, hstep, rfl, rfl, by rw [hget], by rw [hget], by rw [hget], rfl, rfl, rfl⟩

/-! ### The canonical state during the hit phase of a second allocation -/

/-- The hash index after re-registering the first `i` chained hashes of `t`
on top of `m0` (each hit re-runs `hash_to_block_id[h] = block_id`). -/
def reInsMap (bs : Nat) (t : List Int) (m0 : List (Int × Nat)) : Nat → List (Int × Nat)
  | 0 => m0
  | i + 1 => dictInsert (reInsMap bs t m0 i) (chainH bs t i) i

/-- Block `j` of the pool after a second sequence has hit the first `i`
blocks of the fresh allocation of `tA` (`a` logical blocks bound). -/
def hitBlockF (bs : Nat) (tA : List Int) (a i j : Nat) : Block :=
  if j < i then ⟨j, 2, chainH bs tA j, blockChunk bs tA j⟩ else freshBlockF bs tA a j

/-- The manager after the second sequence's first `i` (hit) iterations. -/
def hitMgr (N bs : Nat) (tA : List Int) (i : Nat) : BlockManager :=
  ⟨bs, (List.range N).map (hitBlockF bs tA (nbOf bs tA.length) i),
   reInsMap bs tA (freshMap bs tA (fbOf bs tA.length)) i,
   List.range' (nbOf bs tA.length) (N - nbOf bs tA.length),
   Finset.range (nbOf bs tA.length)⟩

/-- The loop state after the second sequence's first `i` (hit) iterations. -/
def hitSt (N bs : Nat) (tA : List Int) (B : Sequence) (i : Nat) : AllocSt :=
  ⟨hitMgr N bs tA i,
   { B with block_table := List.range i,
            num_cached_tokens := B.num_cached_tokens + i * bs },
   if i = 0 then -1 else chainH bs tA (i - 1), false⟩

theorem chainH_unfold (bs : Nat) (t : List Int) (i : Nat) :
    chainH bs t i = compute_hash (blockChunk bs t i) (if i = 0 then -1 else chainH bs t (i - 1)) := by
  cases i <;> rfl

theorem dictGet_reIns_of_not {bs : Nat} {t : List Int} {m0 : List (Int × Nat)} {i : Nat}
    {k : Int} (h : ∀ j, j < i → k ≠ chainH bs t j) :
    dictGet (reInsMap bs t m0 i) k = dictGet m0 k := by
  induction i with
  | zero => rfl
  | succ i ih =>
    rw [reInsMap, dictGet_insert, if_neg (fun he => h i (by omega) he.symm)]
    exact ih (fun j hj => h j (by omega))

theorem reIns_keys_nonneg {bs : Nat} {t : List Int} {m0 : List (Int × Nat)} {i : Nat}
    (h0 : ∀ p ∈ m0, 0 ≤ p.1) : ∀ p ∈ reInsMap bs t m0 i, 0 ≤ p.1 := by
  induction i with
  | zero => exact h0
  | succ i ih =>
    intro p hp
    rw [reInsMap, dictInsert] at hp
    rcases List.mem_cons.mp hp with rfl | hmem
    · exact chainH_nonneg bs t i
    · exact ih p (List.mem_of_mem_filter hmem)

theorem hitBlockF_point (bs : Nat) (tA : List Int) (a i x : Nat) :
    (if x = i then (⟨i, 2, chainH bs tA i, blockChunk bs tA i⟩ : Block)
     else hitBlockF bs tA a i x) = hitBlockF bs tA a (i + 1) x := by
  unfold hitBlockF
  by_cases hx : x = i
  · subst hx
    rw [if_pos rfl, if_pos (show x < x + 1 by omega)]
  · rw [if_neg hx]
    by_cases hlt : x < i
    · rw [if_pos hlt, if_pos (show x < i + 1 by omega)]
    · rw [if_neg hlt, if_neg (show ¬ x < i + 1 by omega)]

theorem hitMgr_zero {N bs : Nat} {tA : List Int} (hbs : 0 < bs) :
    hitMgr N bs tA 0 = freshMgr N bs tA (nbOf bs tA.length) := by
  unfold hitMgr freshMgr reInsMap
  congr 1
  rw [Nat.min_eq_right (fb_le_nb hbs tA.length)]

theorem hitSt_step {N bs : Nat} {tA : List Int} {B : Sequence} {k i : Nat}
    (hbs : 0 < bs)
    (hfullA : k * bs ≤ tA.length) (hfullB : k * bs ≤ B.token_ids.length)
    (heq : tA.take (k * bs) = B.token_ids.take (k * bs))
    (hi : i < k) (hN : nbOf bs tA.length ≤ N) :
    allocStep bs (hitSt N bs tA B i) (B.block bs i) = some (hitSt N bs tA B (i + 1)) := by
  have hkfA : k ≤ fbOf bs tA.length := (Nat.le_div_iff_mul_le hbs).mpr hfullA
  have hifA : i < fbOf bs tA.length := lt_of_lt_of_le hi hkfA
  have hinbA : i < nbOf bs tA.length := lt_of_lt_of_le hifA (fb_le_nb hbs _)
  have hiN : i < N := lt_of_lt_of_le hinbA hN
  have hfulliA : (i + 1) * bs ≤ tA.length := (full_iff_lt_fb hbs _ i).mpr hifA
  have hmul : (i + 1) * bs ≤ k * bs := Nat.mul_le_mul_right bs (by omega)
  have hfulliB : (i + 1) * bs ≤ B.token_ids.length := le_trans hmul hfullB
  have hchunkeq : blockChunk bs B.token_ids i = blockChunk bs tA i :=
    (blockChunk_congr (take_congr_of_le hmul heq)).symm
  have hhs : stepHash bs (hitSt N bs tA B i) (B.block bs i) = chainH bs tA i := by
    unfold stepHash Sequence.block
    rw [if_pos ((blockChunk_length_eq_bs hbs).mpr hfulliB), hchunkeq]
    show compute_hash (blockChunk bs tA i) (if i = 0 then -1 else chainH bs tA (i - 1)) = _
    exact (chainH_unfold bs tA i).symm
  have hlook : dictGet (hitSt N bs tA B i).mgr.hash_to_block_id
      (stepHash bs (hitSt N bs tA B i) (B.block bs i)) = (i : Int) := by
    rw [hhs]
    show dictGet (reInsMap bs tA (freshMap bs tA (fbOf bs tA.length)) i) (chainH bs tA i) = _
    rw [dictGet_reIns_of_not (fun j hj he => absurd (chainH_depth_inj he) (by omega))]
    exact dictGet_freshMap_self hifA
  have hget : (hitSt N bs tA B i).mgr.getBlock i =
      ⟨i, 1, chainH bs tA i, blockChunk bs tA i⟩ := by
    show (hitMgr N bs tA i).getBlock i = _
    unfold hitMgr
    rw [getBlock_map_range _ _ _ _ _ hiN]
    unfold hitBlockF freshBlockF
    rw [if_neg (by omega), if_pos hinbA, if_pos hfulliA]
  have hstep := allocStep_hit_used bs (hitSt N bs tA B i) (B.block bs i) i rfl hlook
    (by rw [hget]
        exact hchunkeq.symm)
    (by show i ∈ Finset.range (nbOf bs tA.length)
        exact Finset.mem_range.mpr hinbA)
    (by rw [hhs]
        exact chainH_ne_sentinel bs tA i)
    (by show i < ((List.range N).map (hitBlockF bs tA (nbOf bs tA.length) i)).length
        simpa using hiN)
  rw [hstep, hhs]
  have hmgr : hitUsedMgr (hitSt N bs tA B i).mgr i (chainH bs tA i) (B.block bs i) =
      hitMgr N bs tA (i + 1) := by
    unfold hitUsedMgr
    rw [show (hitSt N bs tA B i).mgr.getBlock i = ⟨i, 1, chainH bs tA i, blockChunk bs tA i⟩
      from hget,
      show B.block bs i = blockChunk bs tA i from hchunkeq]
    show BlockManager.mk bs
        (((List.range N).map (hitBlockF bs tA (nbOf bs tA.length) i)).set i _)
        (dictInsert (reInsMap bs tA (freshMap bs tA (fbOf bs tA.length)) i)
          (chainH bs tA i) i) _ _ = _
    unfold hitMgr
    congr 1
    rw [set_map_range _ _ hiN]
    apply List.map_congr_left
    intro x _
    rw [← hitBlockF_point bs tA (nbOf bs tA.length) i x]
    by_cases hx : x = i
    · rw [if_pos hx, if_pos hx]
      rfl
    · rw [if_neg hx, if_neg hx]
  have hseq : ({ (hitSt N bs tA B i).seq with
      num_cached_tokens := (hitSt N bs tA B i).seq.num_cached_tokens + bs,
      block_table := (hitSt N bs tA B i).seq.block_table ++ [i] } : Sequence) =
      (hitSt N bs tA B (i + 1)).seq := by
    show Sequence.mk B.token_ids B.last_token B.num_tokens B.num_prompt_tokens
        (B.num_cached_tokens + i * bs + bs) (List.range i ++ [i]) =
      Sequence.mk B.token_ids B.last_token B.num_tokens B.num_prompt_tokens
        (B.num_cached_tokens + (i + 1) * bs) (List.range (i + 1))
    rw [← List.range_succ, Nat.add_assoc, ← Nat.succ_mul]
  rw [hmgr, hseq]
  show some (AllocSt.mk _ _ _ false) = _
  rw [show chainH bs tA i = (if i + 1 = 0 then -1 else chainH bs tA (i + 1 - 1)) by
    rw [if_neg (by omega), Nat.add_sub_cancel]]
  rfl

theorem allocLoop_append (bs : Nat) (L1 : List (List Int)) :
    ∀ (L2 : List (List Int)) (st : AllocSt),
    allocLoop bs st (L1 ++ L2) = (allocLoop bs st L1).bind (fun st2 => allocLoop bs st2 L2) := by
  induction L1 with
  | nil => intro L2 st; rfl
  | cons t L1 ih =>
    intro L2 st
    rw [List.cons_append, allocLoop, allocLoop, Option.bind_assoc]
    cases allocStep bs st t with
    | none => rfl
    | some st1 =>
      rw [Option.some_bind, Option.some_bind]
      exact ih L2 st1

theorem take_range' (s m n : Nat) : (List.range' s m).take n = List.range' s (min n m) := by
  apply List.ext_getElem?
  intro i
  rw [List.getElem?_take]
  by_cases him : i < min n m
  · rw [if_pos (by omega), List.getElem?_range' s 1 (show i < m by omega),
      List.getElem?_range' s 1 him]
  · by_cases hin : i < n
    · rw [if_pos hin, List.getElem?_eq_none (by simpa using (by omega : m ≤ i)),
        List.getElem?_eq_none (by simpa using (by omega : min n m ≤ i))]
    · rw [if_neg hin, List.getElem?_eq_none (by simpa using (by omega : min n m ≤ i))]

theorem hitSt_loop {N bs : Nat} {tA : List Int} {B : Sequence} {k : Nat}
    (hbs : 0 < bs)
    (hfullA : k * bs ≤ tA.length) (hfullB : k * bs ≤ B.token_ids.length)
    (heq : tA.take (k * bs) = B.token_ids.take (k * bs))
    (hN : nbOf bs tA.length ≤ N) :
    ∀ (c i : Nat), i + c = k →
    allocLoop bs (hitSt N bs tA B i) ((List.range' i c).map (B.block bs)) =
      some (hitSt N bs tA B k) := by
  intro c
  induction c with
  | zero =>
    intro i hik
    obtain rfl : i = k := by omega
    rfl
  | succ c ih =>
    intro i hik
    rw [List.range'_succ, List.map_cons, allocLoop,
      hitSt_step hbs hfullA hfullB heq (by omega) hN, Option.some_bind]
    exact ih (i + 1) (by omega)

theorem mem_reIns {bs : Nat} {t : List Int} {m0 : List (Int × Nat)} :
    ∀ {i : Nat} {p : Int × Nat}, p ∈ reInsMap bs t m0 i →
    (∃ j, j < i ∧ p = (chainH bs t j, j)) ∨ p ∈ m0 := by
  intro i
  induction i with
  | zero => exact fun hp => Or.inr hp
  | succ i ih =>
    intro p hp
    rw [reInsMap, dictInsert] at hp
    rcases List.mem_cons.mp hp with rfl | hmem
    · exact Or.inl ⟨i, by omega, rfl⟩
    · rcases ih (List.mem_of_mem_filter hmem) with ⟨j, hj, rfl⟩ | hm
      · exact Or.inl ⟨j, by omega, rfl⟩
      · exact Or.inr hm

/-- At the first diverging logical block of the second sequence, the lookup
of its chained hash finds nothing: every registered hash encodes a prefix of
the first sequence, and equality would force the diverging chunks equal. -/
theorem hitSt_lookup_miss {N bs : Nat} {tA : List Int} {B : Sequence} {k : Nat}
    (hbs : 0 < bs)
    (heq : tA.take (k * bs) = B.token_ids.take (k * bs))
    (hdiff : blockChunk bs tA k ≠ blockChunk bs B.token_ids k) :
    dictGet (hitSt N bs tA B k).mgr.hash_to_block_id
      (stepHash bs (hitSt N bs tA B k) (B.block bs k)) = -1 := by
  have hkeys : ∀ p ∈ (hitSt N bs tA B k).mgr.hash_to_block_id,
      ∃ j, p.1 = chainH bs tA j := by
    intro p hp
    rcases mem_reIns hp with ⟨j, _, rfl⟩ | hm
    · exact ⟨j, rfl⟩
    · obtain ⟨j, _, rfl⟩ := freshMap_mem.mp hm
      exact ⟨j, rfl⟩
  by_cases hfull : (blockChunk bs B.token_ids k).length = bs
  · have hhs : stepHash bs (hitSt N bs tA B k) (B.block bs k) =
        chainH bs B.token_ids k := by
      unfold stepHash Sequence.block
      rw [if_pos hfull]
      rw [chainH_unfold bs B.token_ids k]
      congr 1
      rcases Nat.eq_zero_or_pos k with rfl | hk
      · rfl
      · show (if k = 0 then -1 else chainH bs tA (k - 1)) = _
        rw [if_neg (by omega), if_neg (by omega)]
        exact chainH_congr (by
          have : (k - 1 + 1) * bs = k * bs := by
            congr 1
            omega
          rw [this]
          exact heq)
    rw [hhs]
    apply dictGet_not_found
    intro p hp hpk
    obtain ⟨j, hj⟩ := hkeys p hp
    rw [hj] at hpk
    obtain ⟨rfl, htake⟩ := chainH_inj hpk
    exact hdiff (blockChunk_congr htake)
  · have hhs : stepHash bs (hitSt N bs tA B k) (B.block bs k) = -1 := by
      unfold stepHash Sequence.block
      rw [if_neg hfull]
    rw [hhs]
    apply dictGet_not_found
    intro p hp
    obtain ⟨j, hj⟩ := hkeys p hp
    rw [hj]
    exact chainH_ne_sentinel bs tA j

/-- C1: prefix sharing.  Starting from a fresh pool, allocate `A`, then `B`,
where the first `k` logical blocks are full and byte-identical and the
`(k+1)`-st logical blocks differ.  The first `k` block-table entries agree
id-for-id, every later index at which both tables have entries disagrees,
and `B` is credited exactly `k * block_size` cached tokens. -/
theorem alloc_shares_exact_prefix (N bs k : Nat) (A B : Sequence)
    (hbs : 0 < bs)
    (hA_tab : A.block_table = []) (hA_len : A.num_tokens = A.token_ids.length)
    (hB_tab : B.block_table = []) (hB_len : B.num_tokens = B.token_ids.length)
    (hB_cached : B.num_cached_tokens = 0)
    (hfullA : k * bs ≤ A.token_ids.length) (hfullB : k * bs ≤ B.token_ids.length)
    (heq : A.token_ids.take (k * bs) = B.token_ids.take (k * bs))
    (hdiff : blockChunk bs A.token_ids k ≠ blockChunk bs B.token_ids k)
    (hkB : k < B.num_blocks bs)
    (hcap : A.num_blocks bs + (B.num_blocks bs - k) ≤ N) :
    ∃ mA A2 mB B2,
      (BlockManager.init N bs).allocate A = some (mA, A2) ∧
      mA.allocate B = some (mB, B2) ∧
      (∀ j, j < k → A2.block_table[j]? = B2.block_table[j]?) ∧
      (∀ j, k ≤ j → ∀ a b, A2.block_table[j]? = some a → B2.block_table[j]? = some b →
        a ≠ b) ∧
      B2.num_cached_tokens = k * bs := by
  have hnbAeq : A.num_blocks bs = nbOf bs A.token_ids.length := by
    rw [num_blocks_eq, hA_len]
  have hnbBeq : B.num_blocks bs = nbOf bs B.token_ids.length := by
    rw [num_blocks_eq, hB_len]
  have hkB2 : k < nbOf bs B.token_ids.length := hnbBeq ▸ hkB
  have hkfA : k ≤ fbOf bs A.token_ids.length := (Nat.le_div_iff_mul_le hbs).mpr hfullA
  have hfAnbA : fbOf bs A.token_ids.length ≤ nbOf bs A.token_ids.length :=
    fb_le_nb hbs _
  have hcap2 : nbOf bs A.token_ids.length + (nbOf bs B.token_ids.length - k) ≤ N := by
    rw [hnbAeq, hnbBeq] at hcap
    exact hcap
  have hnbAN : nbOf bs A.token_ids.length ≤ N := by omega
  have hnbA1N : nbOf bs A.token_ids.length + 1 ≤ N := by omega
  have hArun := @allocate_fresh N bs A hbs hA_tab hA_len (by rw [hnbAeq]; omega)
  -- the start of B's pass is the canonical hit state 0
  have hstart : (⟨freshMgr N bs A.token_ids (nbOf bs A.token_ids.length), B, -1, false⟩ :
      AllocSt) = hitSt N bs A.token_ids B 0 := by
    unfold hitSt
    rw [hitMgr_zero hbs]
    show AllocSt.mk _ B _ _ = AllocSt.mk _
      (Sequence.mk B.token_ids B.last_token B.num_tokens B.num_prompt_tokens
        (B.num_cached_tokens + 0 * bs) (List.range 0)) _ _
    rw [show B.num_cached_tokens + 0 * bs = B.num_cached_tokens by omega,
      show List.range 0 = ([] : List Nat) from rfl, ← hB_tab]
    rfl
  -- the split of B's logical blocks
  have hsplit : List.range' 0 (nbOf bs B.token_ids.length) =
      List.range' 0 k ++ List.range' k (nbOf bs B.token_ids.length - k) := by
    have h2 := List.range'_append 0 k (nbOf bs B.token_ids.length - k) 1
    rw [show 0 + 1 * k = k by omega,
      show nbOf bs B.token_ids.length - k + k = nbOf bs B.token_ids.length by omega] at h2
    exact h2.symm
  have hcons : List.range' k (nbOf bs B.token_ids.length - k) =
      k :: List.range' (k + 1) (nbOf bs B.token_ids.length - k - 1) := by
    have h2 := List.range'_succ k (nbOf bs B.token_ids.length - k - 1) 1
    rw [show nbOf bs B.token_ids.length - k - 1 + 1 = nbOf bs B.token_ids.length - k
      by omega] at h2
    exact h2
  -- the diverging step
  have hfreeK : (hitSt N bs A.token_ids B k).mgr.free_block_ids =
      nbOf bs A.token_ids.length ::
        List.range' (nbOf bs A.token_ids.length + 1) (N - (nbOf bs A.token_ids.length + 1)) := by
    show List.range' (nbOf bs A.token_ids.length) (N - nbOf bs A.token_ids.length) = _
    rw [show N - nbOf bs A.token_ids.length =
      (N - (nbOf bs A.token_ids.length + 1)) + 1 by omega, List.range'_succ]
  have hgetK : (hitSt N bs A.token_ids B k).mgr.getBlock (nbOf bs A.token_ids.length) =
      ⟨nbOf bs A.token_ids.length, 0, -1, []⟩ := by
    show (hitMgr N bs A.token_ids k).getBlock _ = _
    unfold hitMgr
    rw [getBlock_map_range _ _ _ _ _ (by omega)]
    unfold hitBlockF freshBlockF
    rw [if_neg (by omega), if_neg (by omega)]
  have hstepK := allocStep_miss bs (hitSt N bs A.token_ids B k) (B.block bs k)
    (nbOf bs A.token_ids.length)
    (List.range' (nbOf bs A.token_ids.length + 1) (N - (nbOf bs A.token_ids.length + 1)))
    (Or.inr (Or.inl (hitSt_lookup_miss hbs heq hdiff))) hfreeK
    (by show _ < ((List.range N).map
          (hitBlockF bs A.token_ids (nbOf bs A.token_ids.length) k)).length
        simpa using (by omega : nbOf bs A.token_ids.length < N))
    (by rw [hgetK])
  -- the remaining all-miss run
  obtain ⟨st2, hrun2, htab2, hcache2, _, _, _, _⟩ := allocLoop_missRun bs
    ((List.range' (k + 1) (nbOf bs B.token_ids.length - k - 1)).map (B.block bs))
    ⟨missMgr (hitSt N bs A.token_ids B k).mgr (nbOf bs A.token_ids.length)
       (List.range' (nbOf bs A.token_ids.length + 1) (N - (nbOf bs A.token_ids.length + 1)))
       (stepHash bs (hitSt N bs A.token_ids B k) (B.block bs k)) (B.block bs k),
     { (hitSt N bs A.token_ids B k).seq with
       block_table := (hitSt N bs A.token_ids B k).seq.block_table ++
         [nbOf bs A.token_ids.length] },
     stepHash bs (hitSt N bs A.token_ids B k) (B.block bs k), true⟩
    rfl
    (by show _ ≤ (missMgr (hitSt N bs A.token_ids B k).mgr _ _ _ _).free_block_ids.length
        rw [missMgr_free]
        simpa using (by omega :
          nbOf bs B.token_ids.length - k - 1 ≤ N - (nbOf bs A.token_ids.length + 1)))
    (by show (missMgr (hitSt N bs A.token_ids B k).mgr _ _ _ _).free_block_ids.Nodup
        rw [missMgr_free]
        exact List.nodup_range' _ _)
    (by intro id hid
        rw [show (AllocSt.mk (missMgr (hitSt N bs A.token_ids B k).mgr
            (nbOf bs A.token_ids.length)
            (List.range' (nbOf bs A.token_ids.length + 1)
              (N - (nbOf bs A.token_ids.length + 1)))
            (stepHash bs (hitSt N bs A.token_ids B k) (B.block bs k)) (B.block bs k))
            ({ (hitSt N bs A.token_ids B k).seq with
               block_table := (hitSt N bs A.token_ids B k).seq.block_table ++
                 [nbOf bs A.token_ids.length] })
            (stepHash bs (hitSt N bs A.token_ids B k) (B.block bs k)) true).mgr =
          missMgr (hitSt N bs A.token_ids B k).mgr (nbOf bs A.token_ids.length)
            (List.range' (nbOf bs A.token_ids.length + 1)
              (N - (nbOf bs A.token_ids.length + 1)))
            (stepHash bs (hitSt N bs A.token_ids B k) (B.block bs k)) (B.block bs k)
          from rfl] at hid ⊢
        rw [missMgr_free] at hid
        obtain ⟨hid1, hid2⟩ := List.mem_range'_1.mp hid
        have hne : id ≠ nbOf bs A.token_ids.length := by omega
        rw [missMgr_blocks_length, missMgr_getBlock_ne _ _ _ _ _ hne]
        constructor
        · show id < ((List.range N).map
            (hitBlockF bs A.token_ids (nbOf bs A.token_ids.length) k)).length
          simpa using (by omega : id < N)
        · show ((hitMgr N bs A.token_ids k).getBlock id).ref_count = 0
          unfold hitMgr
          rw [getBlock_map_range _ _ _ _ _ (by omega)]
          unfold hitBlockF freshBlockF
          rw [if_neg (by omega), if_neg (by omega)])
  -- assemble B's allocate call
  have hBrun : (freshMgr N bs A.token_ids (nbOf bs A.token_ids.length)).allocate B =
      some (st2.mgr, st2.seq) := by
    unfold BlockManager.allocate
    rw [if_pos hB_tab]
    rw [show (freshMgr N bs A.token_ids (nbOf bs A.token_ids.length)).block_size = bs
      from rfl]
    rw [show logicalBlocks bs B =
        (List.range' 0 (nbOf bs B.token_ids.length)).map (B.block bs) by
      unfold logicalBlocks
      rw [List.range_eq_range', hnbBeq]]
    rw [hstart, hsplit, List.map_append, allocLoop_append,
      hitSt_loop hbs hfullA hfullB heq hnbAN k 0 (by omega), Option.some_bind,
      hcons, List.map_cons, allocLoop, hstepK, Option.some_bind, hrun2]
    rfl
  have htabB : st2.seq.block_table =
      List.range k ++ List.range' (nbOf bs A.token_ids.length)
        (nbOf bs B.token_ids.length - k) := by
    rw [htab2]
    rw [show (AllocSt.mk (missMgr (hitSt N bs A.token_ids B k).mgr
        (nbOf bs A.token_ids.length)
        (List.range' (nbOf bs A.token_ids.length + 1)
          (N - (nbOf bs A.token_ids.length + 1)))
        (stepHash bs (hitSt N bs A.token_ids B k) (B.block bs k)) (B.block bs k))
        ({ (hitSt N bs A.token_ids B k).seq with
           block_table := (hitSt N bs A.token_ids B k).seq.block_table ++
             [nbOf bs A.token_ids.length] })
        (stepHash bs (hitSt N bs A.token_ids B k) (B.block bs k)) true).mgr.free_block_ids =
        List.range' (nbOf bs A.token_ids.length + 1) (N - (nbOf bs A.token_ids.length + 1))
      from missMgr_free _ _ _ _ _,
      show (AllocSt.mk (missMgr (hitSt N bs A.token_ids B k).mgr
        (nbOf bs A.token_ids.length)
        (List.range' (nbOf bs A.token_ids.length + 1)
          (N - (nbOf bs A.token_ids.length + 1)))
        (stepHash bs (hitSt N bs A.token_ids B k) (B.block bs k)) (B.block bs k))
        ({ (hitSt N bs A.token_ids B k).seq with
           block_table := (hitSt N bs A.token_ids B k).seq.block_table ++
             [nbOf bs A.token_ids.length] })
        (stepHash bs (hitSt N bs A.token_ids B k) (B.block bs k)) true).seq.block_table =
        List.range k ++ [nbOf bs A.token_ids.length] from rfl]
    rw [List.length_map, List.length_range', take_range',
      Nat.min_eq_left (by omega), List.append_assoc]
    congr 1
    have h3 := List.range'_succ (nbOf bs A.token_ids.length)
      (nbOf bs B.token_ids.length - k - 1) 1
    rw [show nbOf bs B.token_ids.length - k - 1 + 1 = nbOf bs B.token_ids.length - k
      by omega] at h3
    rw [h3]
    rfl
  have hcachedB : st2.seq.num_cached_tokens = k * bs := by
    rw [hcache2]
    show B.num_cached_tokens + k * bs = k * bs
    rw [hB_cached, Nat.zero_add]
  refine ⟨_, _, st2.mgr, st2.seq, hArun, hBrun, ?_, ?_, hcachedB⟩
  · intro j hj
    show (List.range (nbOf bs A.token_ids.length))[j]? = st2.seq.block_table[j]?
    rw [htabB, List.getElem?_append, if_pos (by simpa using hj),
      List.getElem?_range (show j < nbOf bs A.token_ids.length by omega),
      List.getElem?_range hj]
  · intro j hjk a b ha hb
    rw [show (Sequence.mk A.token_ids A.last_token A.num_tokens A.num_prompt_tokens
        A.num_cached_tokens
        (List.range (nbOf bs A.token_ids.length))).block_table =
      List.range (nbOf bs A.token_ids.length) from rfl] at ha
    have hja : j < nbOf bs A.token_ids.length ∧ a = j := by
      by_cases hjn : j < nbOf bs A.token_ids.length
      · rw [List.getElem?_range hjn] at ha
        exact ⟨hjn, (Option.some.inj ha).symm⟩
      · rw [List.getElem?_eq_none (by simpa using Nat.le_of_not_lt hjn)] at ha
        exact Option.noConfusion ha
    rw [htabB, List.getElem?_append, if_neg (by simpa using hjk)] at hb
    by_cases hjb : j - (List.range k).length < nbOf bs B.token_ids.length - k
    · rw [List.getElem?_range' _ _ hjb] at hb
      have hb2 : b = nbOf bs A.token_ids.length + 1 * (j - (List.range k).length) :=
        (Option.some.inj hb).symm
      have hlr : (List.range k).length = k := List.length_range k
      omega
    · rw [List.getElem?_eq_none (by simpa using Nat.le_of_not_lt hjb)] at hb
      exact Option.noConfusion hb

/-! ### Token-by-token growth (claim C5) -/

/-- Modelled from the spec (§4.4 calling discipline): the scheduler appends
each newly generated token to the sequence (`append_token`) and then calls
`may_append`; this folds that per-token cycle over a list of tokens.  Only
the loop is the scheduler's; both operations folded are source functions. -/
def growAll : BlockManager → Sequence → List Int → Option (BlockManager × Sequence)
  | m, s, [] => some (m, s)
  | m, s, t :: rest => (m.may_append (s.appendToken t)).bind (fun q => growAll q.1 q.2 rest)

theorem take_snoc {cur : List Int} {t : Int} {n : Nat} (h : n ≤ cur.length) :
    (cur ++ [t]).take n = cur.take n :=
  List.take_append_of_le_length h

theorem chainH_snoc {bs : Nat} {cur : List Int} {t : Int} {j : Nat}
    (h : (j + 1) * bs ≤ cur.length) :
    chainH bs (cur ++ [t]) j = chainH bs cur j :=
  chainH_congr (take_snoc h)

theorem blockChunk_snoc {bs : Nat} {cur : List Int} {t : Int} {j : Nat}
    (h : (j + 1) * bs ≤ cur.length) :
    blockChunk bs (cur ++ [t]) j = blockChunk bs cur j :=
  blockChunk_congr (take_snoc h)

theorem freshBlockF_snoc {bs : Nat} {cur : List Int} {t : Int} {a j : Nat}
    (hiff : (j + 1) * bs ≤ cur.length + 1 → (j + 1) * bs ≤ cur.length) :
    freshBlockF bs (cur ++ [t]) a j = freshBlockF bs cur a j := by
  unfold freshBlockF
  rw [List.length_append, List.length_singleton]
  by_cases hja : j < a
  · rw [if_pos hja, if_pos hja]
    by_cases hfull : (j + 1) * bs ≤ cur.length
    · rw [if_pos (by omega), if_pos hfull, chainH_snoc hfull, blockChunk_snoc hfull]
    · rw [if_neg (fun hc => hfull (hiff hc)), if_neg hfull]
  · rw [if_neg hja, if_neg hja]

theorem freshMap_snoc {bs : Nat} {cur : List Int} {t : Int} {c : Nat}
    (h : c * bs ≤ cur.length) :
    freshMap bs (cur ++ [t]) c = freshMap bs cur c := by
  unfold freshMap
  congr 1
  apply List.map_congr_left
  intro j hj
  rw [List.mem_range] at hj
  rw [chainH_snoc (le_trans (Nat.mul_le_mul_right bs (by omega)) h)]

theorem getD_range {q i : Nat} (h : i < q) : (List.range q).getD i 0 = i := by
  rw [List.getD_eq_getElem?_getD, List.getElem?_range h]
  rfl

theorem freshBlockF_succ_ne {bs : Nat} {t : List Int} {q x : Nat} (h : x ≠ q) :
    freshBlockF bs t (q + 1) x = freshBlockF bs t q x := by
  unfold freshBlockF
  by_cases hlt : x < q
  · rw [if_pos hlt, if_pos (by omega)]
  · rw [if_neg hlt, if_neg (by omega)]

/-- `may_append` in the block-crossing case (`len % bs == 1`). -/
theorem may_append_case1 (m : BlockManager) (s : Sequence) (lastId x : Nat) (xs : List Nat)
    (hlast : s.block_table.getLast? = some lastId)
    (hbound : lastId < m.blocks.length)
    (hr : s.num_tokens % m.block_size = 1)
    (hhash : (m.getBlock lastId).hash ≠ -1)
    (hfree : m.free_block_ids = x :: xs)
    (hx : x < m.blocks.length) (href : (m.getBlock x).ref_count = 0) :
    m.may_append s = some
      (⟨m.block_size, m.blocks.set x (m.getBlock x).reset, m.hash_to_block_id, xs,
        insert x m.used_block_ids⟩,
       { s with block_table := s.block_table ++ [x] }) := by
  have halloc : m.allocBlock x = some
      (BlockManager.mk m.block_size (m.blocks.set x (m.getBlock x).reset)
        m.hash_to_block_id xs (insert x m.used_block_ids)) := by
    unfold BlockManager.allocBlock
    rw [if_pos ⟨hx, href, by rw [hfree]; exact List.mem_cons_self x xs⟩, hfree,
      List.erase_cons_head]
  unfold BlockManager.may_append
  rw [hlast]
  simp only []
  rw [if_pos hbound, if_pos hr, if_pos hhash, hfree]
  simp only [halloc, Option.map_some']

/-- `may_append` in the block-completion case (`len % bs == 0`). -/
theorem may_append_case0 (m : BlockManager) (s : Sequence) (lastId : Nat)
    (hlast : s.block_table.getLast? = some lastId)
    (hbound : lastId < m.blocks.length)
    (hr : s.num_tokens % m.block_size = 0)
    (hbs : 0 < m.block_size)
    (hhash : (m.getBlock lastId).hash = -1) :
    m.may_append s = some
      (⟨m.block_size,
        m.blocks.set lastId ((m.getBlock lastId).update
          (compute_hash (s.block m.block_size (s.num_blocks m.block_size - 1))
            (if 1 < s.block_table.length then
              (m.getBlock (s.block_table.getD (s.block_table.length - 2) 0)).hash
             else -1))
          (s.block m.block_size (s.num_blocks m.block_size - 1))),
        dictInsert m.hash_to_block_id
          (compute_hash (s.block m.block_size (s.num_blocks m.block_size - 1))
            (if 1 < s.block_table.length then
              (m.getBlock (s.block_table.getD (s.block_table.length - 2) 0)).hash
             else -1))
          (m.getBlock lastId).block_id,
        m.free_block_ids, m.used_block_ids⟩, s) := by
  unfold BlockManager.may_append
  rw [hlast]
  simp only []
  rw [if_pos hbound, if_neg (by omega), if_pos hr, if_pos hhash]
  rfl

/-- `may_append` in the mid-block case (no structural change). -/
theorem may_append_else (m : BlockManager) (s : Sequence) (lastId : Nat)
    (hlast : s.block_table.getLast? = some lastId)
    (hbound : lastId < m.blocks.length)
    (hr1 : s.num_tokens % m.block_size ≠ 1)
    (hr0 : s.num_tokens % m.block_size ≠ 0)
    (hhash : (m.getBlock lastId).hash = -1) :
    m.may_append s = some (m, s) := by
  unfold BlockManager.may_append
  rw [hlast]
  simp only []
  rw [if_pos hbound, if_neg hr1, if_neg hr0, if_pos hhash]

/-- Appending one token into a sequence whose length is an exact multiple of
the block size: `may_append` pops the next free block and the canonical fresh
state advances by one pool block. -/
theorem grow_step_cross {N bs q : Nat} (s : Sequence) (t : Int)
    (hbs : 2 ≤ bs)
    (hlen : s.num_tokens = s.token_ids.length)
    (hLq : s.token_ids.length = q * bs)
    (hq1 : 1 ≤ q)
    (htab : s.block_table = List.range q)
    (hN : q + 1 ≤ N) :
    (freshMgr N bs s.token_ids q).may_append (s.appendToken t) =
      some (freshMgr N bs (s.token_ids ++ [t]) (q + 1),
        { s.appendToken t with block_table := List.range (q + 1) }) := by
  have hbs0 : 0 < bs := by omega
  have hlast : (s.appendToken t).block_table.getLast? = some (q - 1) := by
    show s.block_table.getLast? = _
    rw [htab, List.getLast?_range, if_neg (by omega)]
  have hblen : (freshMgr N bs s.token_ids q).blocks.length = N := by
    simp [freshMgr]
  have hmod1 : (s.token_ids.length + 1) % bs = 1 := by
    rw [hLq, Nat.mul_comm, Nat.mul_add_mod, Nat.mod_eq_of_lt (by omega)]
  have hgetLast : (freshMgr N bs s.token_ids q).getBlock (q - 1) =
      ⟨q - 1, 1, chainH bs s.token_ids (q - 1), blockChunk bs s.token_ids (q - 1)⟩ := by
    rw [show (freshMgr N bs s.token_ids q) = BlockManager.mk bs
        ((List.range N).map (freshBlockF bs s.token_ids q))
        (freshMap bs s.token_ids (min q (fbOf bs s.token_ids.length)))
        (List.range' q (N - q)) (Finset.range q) from rfl,
      getBlock_map_range bs _ _ _ _ (show q - 1 < N by omega)]
    unfold freshBlockF
    rw [if_pos (show q - 1 < q by omega), if_pos (by rw [show q - 1 + 1 = q by omega, hLq])]
  have hgetQ : (freshMgr N bs s.token_ids q).getBlock q = ⟨q, 0, -1, []⟩ := by
    rw [show (freshMgr N bs s.token_ids q) = BlockManager.mk bs
        ((List.range N).map (freshBlockF bs s.token_ids q))
        (freshMap bs s.token_ids (min q (fbOf bs s.token_ids.length)))
        (List.range' q (N - q)) (Finset.range q) from rfl,
      getBlock_map_range bs _ _ _ _ (show q < N by omega)]
    unfold freshBlockF
    rw [if_neg (lt_irrefl q)]
  have hfree : (freshMgr N bs s.token_ids q).free_block_ids =
      q :: List.range' (q + 1) (N - (q + 1)) := by
    show List.range' q (N - q) = _
    rw [show N - q = (N - (q + 1)) + 1 by omega, List.range'_succ]
  rw [may_append_case1 (freshMgr N bs s.token_ids q) (s.appendToken t) (q - 1) q
      (List.range' (q + 1) (N - (q + 1))) hlast (by rw [hblen]; omega)
      (by show (s.num_tokens + 1) % bs = 1; rw [hlen]; exact hmod1)
      (by rw [hgetLast]; exact chainH_ne_sentinel bs s.token_ids (q - 1))
      hfree (by rw [hblen]; omega) (by rw [hgetQ])]
  have hmgr : (BlockManager.mk (freshMgr N bs s.token_ids q).block_size
      ((freshMgr N bs s.token_ids q).blocks.set q
        ((freshMgr N bs s.token_ids q).getBlock q).reset)
      (freshMgr N bs s.token_ids q).hash_to_block_id
      (List.range' (q + 1) (N - (q + 1)))
      (insert q (freshMgr N bs s.token_ids q).used_block_ids)) =
      freshMgr N bs (s.token_ids ++ [t]) (q + 1) := by
    rw [hgetQ]
    show BlockManager.mk bs (((List.range N).map (freshBlockF bs s.token_ids q)).set q
        (Block.reset ⟨q, 0, -1, []⟩))
        (freshMap bs s.token_ids (min q (fbOf bs s.token_ids.length)))
        (List.range' (q + 1) (N - (q + 1))) (insert q (Finset.range q)) = _
    unfold freshMgr
    congr 1
    · rw [set_map_range _ _ (show q < N by omega)]
      apply List.map_congr_left
      intro x hx
      by_cases hxq : x = q
      · subst hxq
        rw [if_pos rfl]
        unfold freshBlockF
        rw [if_pos (show x < x + 1 by omega), if_neg (by
          rw [List.length_append, List.length_singleton, hLq, Nat.succ_mul]
          omega)]
        rfl
      · rw [if_neg hxq, ← freshBlockF_succ_ne hxq]
        refine (freshBlockF_snoc ?_).symm
        intro hle2
        by_contra hnle
        have heq : (x + 1) * bs = s.token_ids.length + 1 := by omega
        have h0 : (s.token_ids.length + 1) % bs = 0 := by
          rw [← heq, Nat.mul_mod_left]
        omega
    · have hfbL : fbOf bs s.token_ids.length = q := by
        show s.token_ids.length / bs = q
        rw [hLq, Nat.mul_div_cancel _ hbs0]
      have hfbL1 : fbOf bs (s.token_ids.length + 1) = q := by
        show (s.token_ids.length + 1) / bs = q
        rw [hLq, show q * bs + 1 = 1 + q * bs by omega, Nat.add_mul_div_right _ _ hbs0,
          Nat.div_eq_of_lt (by omega : 1 < bs)]
        omega
      rw [List.length_append, List.length_singleton, hfbL1, hfbL,
        Nat.min_self, Nat.min_eq_right (by omega)]
      exact (freshMap_snoc (le_of_eq hLq.symm)).symm
    · exact (Finset.range_succ).symm
  rw [hmgr]
  have htab2 : (s.appendToken t).block_table ++ [q] = List.range (q + 1) := by
    show s.block_table ++ [q] = _
    rw [htab, ← List.range_succ]
  rw [htab2]

/-- Appending the token that exactly fills the last logical block:
`may_append` seals the block with its chained hash and registers it, and the
canonical fresh state absorbs the new token. -/
theorem grow_step_complete {N bs p : Nat} (s : Sequence) (t : Int)
    (hbs : 2 ≤ bs)
    (hlen : s.num_tokens = s.token_ids.length)
    (hLq : s.token_ids.length + 1 = (p + 1) * bs)
    (htab : s.block_table = List.range (p + 1))
    (hN : p + 1 ≤ N) :
    (freshMgr N bs s.token_ids (p + 1)).may_append (s.appendToken t) =
      some (freshMgr N bs (s.token_ids ++ [t]) (p + 1),
        { s.appendToken t with block_table := List.range (p + 1) }) := by
  have hbs0 : 0 < bs := by omega
  have hsm : (p + 1) * bs = p * bs + bs := Nat.succ_mul p bs
  have hlast : (s.appendToken t).block_table.getLast? = some p := by
    show s.block_table.getLast? = _
    rw [htab, List.getLast?_range, if_neg (by omega)]
    rfl
  have hblen : (freshMgr N bs s.token_ids (p + 1)).blocks.length = N := by
    simp [freshMgr]
  have hmod0 : (s.token_ids.length + 1) % bs = 0 := by
    rw [hLq, Nat.mul_mod_left]
  have hgetp : (freshMgr N bs s.token_ids (p + 1)).getBlock p = ⟨p, 1, -1, []⟩ := by
    rw [show (freshMgr N bs s.token_ids (p + 1)) = BlockManager.mk bs
        ((List.range N).map (freshBlockF bs s.token_ids (p + 1)))
        (freshMap bs s.token_ids (min (p + 1) (fbOf bs s.token_ids.length)))
        (List.range' (p + 1) (N - (p + 1))) (Finset.range (p + 1)) from rfl,
      getBlock_map_range bs _ _ _ _ (show p < N by omega)]
    unfold freshBlockF
    rw [if_pos (show p < p + 1 by omega), if_neg (by omega)]
  have hnt : (s.appendToken t).num_tokens = s.token_ids.length + 1 := by
    show s.num_tokens + 1 = _
    omega
  rw [may_append_case0 (freshMgr N bs s.token_ids (p + 1)) (s.appendToken t) p hlast
      (by rw [hblen]; omega)
      (by show (s.appendToken t).num_tokens % bs = 0; rw [hnt]; exact hmod0)
      hbs0 (by rw [hgetp])]
  have hnbm : (s.appendToken t).num_blocks
      ((freshMgr N bs s.token_ids (p + 1)).block_size) - 1 = p := by
    show nbOf bs (s.appendToken t).num_tokens - 1 = p
    rw [hnt, nbOf_dvd hbs0 hmod0, hLq, Nat.mul_div_cancel _ hbs0]
    rfl
  rw [hnbm]
  have hblockm : (s.appendToken t).block
      ((freshMgr N bs s.token_ids (p + 1)).block_size) p =
      blockChunk bs (s.token_ids ++ [t]) p := rfl
  rw [hblockm]
  have hpre : (if 1 < (s.appendToken t).block_table.length then
      ((freshMgr N bs s.token_ids (p + 1)).getBlock
        ((s.appendToken t).block_table.getD ((s.appendToken t).block_table.length - 2) 0)).hash
    else -1) = (if p = 0 then (-1 : Int) else chainH bs s.token_ids (p - 1)) := by
    rw [show (s.appendToken t).block_table = List.range (p + 1) from htab, List.length_range]
    by_cases hp0 : p = 0
    · subst hp0
      rw [if_neg (by omega), if_pos rfl]
    · rw [if_pos (by omega), if_neg hp0, show p + 1 - 2 = p - 1 by omega,
        getD_range (by omega)]
      rw [show (freshMgr N bs s.token_ids (p + 1)) = BlockManager.mk bs
          ((List.range N).map (freshBlockF bs s.token_ids (p + 1)))
          (freshMap bs s.token_ids (min (p + 1) (fbOf bs s.token_ids.length)))
          (List.range' (p + 1) (N - (p + 1))) (Finset.range (p + 1)) from rfl,
        getBlock_map_range bs _ _ _ _ (show p - 1 < N by omega)]
      unfold freshBlockF
      rw [if_pos (show p - 1 < p + 1 by omega),
        if_pos (by rw [show p - 1 + 1 = p by omega]; omega)]
  rw [hpre]
  have hH : compute_hash (blockChunk bs (s.token_ids ++ [t]) p)
      (if p = 0 then (-1 : Int) else chainH bs s.token_ids (p - 1)) =
      chainH bs (s.token_ids ++ [t]) p := by
    rw [chainH_unfold bs (s.token_ids ++ [t]) p]
    congr 1
    by_cases hp0 : p = 0
    · rw [if_pos hp0, if_pos hp0]
    · rw [if_neg hp0, if_neg hp0,
        chainH_snoc (by rw [show p - 1 + 1 = p by omega]; omega)]
  rw [hH, hgetp]
  have h1 : (BlockManager.mk (freshMgr N bs s.token_ids (p + 1)).block_size
      ((freshMgr N bs s.token_ids (p + 1)).blocks.set p
        (Block.update ⟨p, 1, -1, []⟩ (chainH bs (s.token_ids ++ [t]) p)
          (blockChunk bs (s.token_ids ++ [t]) p)))
      (dictInsert (freshMgr N bs s.token_ids (p + 1)).hash_to_block_id
        (chainH bs (s.token_ids ++ [t]) p) (Block.block_id ⟨p, 1, -1, []⟩))
      (freshMgr N bs s.token_ids (p + 1)).free_block_ids
      (freshMgr N bs s.token_ids (p + 1)).used_block_ids) =
      freshMgr N bs (s.token_ids ++ [t]) (p + 1) := by
    show BlockManager.mk bs
        (((List.range N).map (freshBlockF bs s.token_ids (p + 1))).set p
          ⟨p, 1, chainH bs (s.token_ids ++ [t]) p, blockChunk bs (s.token_ids ++ [t]) p⟩)
        (dictInsert (freshMap bs s.token_ids (min (p + 1) (fbOf bs s.token_ids.length)))
          (chainH bs (s.token_ids ++ [t]) p) p)
        (List.range' (p + 1) (N - (p + 1))) (Finset.range (p + 1)) = _
    unfold freshMgr
    congr 1
    · rw [set_map_range _ _ (show p < N by omega)]
      apply List.map_congr_left
      intro x hx
      by_cases hxq : x = p
      · subst hxq
        rw [if_pos rfl]
        unfold freshBlockF
        rw [if_pos (show x < x + 1 by omega),
          if_pos (by rw [List.length_append, List.length_singleton]; omega)]
      · rw [if_neg hxq]
        refine (freshBlockF_snoc ?_).symm
        intro hle2
        by_contra hnle
        have heq : (x + 1) * bs = s.token_ids.length + 1 := by omega
        have hx1 := Nat.eq_of_mul_eq_mul_right hbs0 (heq.trans hLq)
        omega
    · have hfbL : fbOf bs s.token_ids.length = p := by
        show s.token_ids.length / bs = p
        rw [show s.token_ids.length = bs - 1 + p * bs by omega,
          Nat.add_mul_div_right _ _ hbs0, Nat.div_eq_of_lt (show bs - 1 < bs by omega)]
        omega
      have hfbL1 : fbOf bs (s.token_ids.length + 1) = p + 1 := by
        show (s.token_ids.length + 1) / bs = p + 1
        rw [hLq, Nat.mul_div_cancel _ hbs0]
      rw [List.length_append, List.length_singleton, hfbL1, Nat.min_self, hfbL,
        Nat.min_eq_right (by omega), freshMap_succ,
        freshMap_snoc (show p * bs ≤ s.token_ids.length by omega)]
      unfold dictInsert
      congr 1
      apply List.filter_eq_self.mpr
      intro pr hpr
      rw [freshMap_mem] at hpr
      obtain ⟨j, hj, rfl⟩ := hpr
      rw [Bool.not_eq_true', beq_eq_false_iff_ne]
      intro hEq
      have := chainH_depth_inj hEq
      omega
  rw [h1]
  have h2 : ({ s.appendToken t with block_table := List.range (p + 1) } : Sequence) =
      s.appendToken t := by
    rw [← htab]
    rfl
  rw [h2]

/-- Appending a token strictly inside the last logical block: `may_append`
changes nothing and the canonical fresh state only absorbs the token. -/
theorem grow_step_mid {N bs f r : Nat} (s : Sequence) (t : Int)
    (hbs : 2 ≤ bs)
    (hlen : s.num_tokens = s.token_ids.length)
    (hLq : s.token_ids.length = f * bs + r)
    (hr1 : 1 ≤ r) (hrbs : r + 1 < bs)
    (htab : s.block_table = List.range (f + 1))
    (hN : f + 1 ≤ N) :
    (freshMgr N bs s.token_ids (f + 1)).may_append (s.appendToken t) =
      some (freshMgr N bs (s.token_ids ++ [t]) (f + 1),
        { s.appendToken t with block_table := List.range (f + 1) }) := by
  have hbs0 : 0 < bs := by omega
  have hsm : (f + 1) * bs = f * bs + bs := Nat.succ_mul f bs
  have hlast : (s.appendToken t).block_table.getLast? = some f := by
    show s.block_table.getLast? = _
    rw [htab, List.getLast?_range, if_neg (by omega)]
    rfl
  have hblen : (freshMgr N bs s.token_ids (f + 1)).blocks.length = N := by
    simp [freshMgr]
  have hmodr : (s.token_ids.length + 1) % bs = r + 1 := by
    rw [show s.token_ids.length + 1 = bs * f + (r + 1) by rw [Nat.mul_comm]; omega,
      Nat.mul_add_mod, Nat.mod_eq_of_lt (by omega)]
  have hgetf : (freshMgr N bs s.token_ids (f + 1)).getBlock f = ⟨f, 1, -1, []⟩ := by
    rw [show (freshMgr N bs s.token_ids (f + 1)) = BlockManager.mk bs
        ((List.range N).map (freshBlockF bs s.token_ids (f + 1)))
        (freshMap bs s.token_ids (min (f + 1) (fbOf bs s.token_ids.length)))
        (List.range' (f + 1) (N - (f + 1))) (Finset.range (f + 1)) from rfl,
      getBlock_map_range bs _ _ _ _ (show f < N by omega)]
    unfold freshBlockF
    rw [if_pos (show f < f + 1 by omega), if_neg (by omega)]
  have hnt : (s.appendToken t).num_tokens = s.token_ids.length + 1 := by
    show s.num_tokens + 1 = _
    omega
  rw [may_append_else (freshMgr N bs s.token_ids (f + 1)) (s.appendToken t) f hlast
      (by rw [hblen]; omega)
      (by show (s.appendToken t).num_tokens % bs ≠ 1; rw [hnt, hmodr]; omega)
      (by show (s.appendToken t).num_tokens % bs ≠ 0; rw [hnt, hmodr]; omega)
      (by rw [hgetf])]
  have h1 : freshMgr N bs s.token_ids (f + 1) = freshMgr N bs (s.token_ids ++ [t]) (f + 1) := by
    unfold freshMgr
    congr 1
    · apply List.map_congr_left
      intro x hx
      refine (freshBlockF_snoc ?_).symm
      intro hle2
      by_contra hnle
      have heq : (x + 1) * bs = s.token_ids.length + 1 := by omega
      have h0 : (s.token_ids.length + 1) % bs = 0 := by
        rw [← heq, Nat.mul_mod_left]
      omega
    · have hfbL : fbOf bs s.token_ids.length = f := by
        show s.token_ids.length / bs = f
        rw [show s.token_ids.length = r + f * bs by omega,
          Nat.add_mul_div_right _ _ hbs0, Nat.div_eq_of_lt (show r < bs by omega)]
        omega
      have hfbL1 : fbOf bs (s.token_ids.length + 1) = f := by
        show (s.token_ids.length + 1) / bs = f
        rw [show s.token_ids.length + 1 = (r + 1) + f * bs by omega,
          Nat.add_mul_div_right _ _ hbs0, Nat.div_eq_of_lt (show r + 1 < bs by omega)]
        omega
      rw [List.length_append, List.length_singleton, hfbL1, hfbL,
        Nat.min_eq_right (show f ≤ f + 1 by omega)]
      exact (freshMap_snoc (by omega)).symm
  have h2 : ({ s.appendToken t with block_table := List.range (f + 1) } : Sequence) =
      s.appendToken t := by
    rw [← htab]
    rfl
  rw [h1, h2]

/-- One `append_token` followed by `may_append` on the canonical fresh state
advances it to the canonical fresh state of the extended token list. -/
theorem grow_step {N bs : Nat} (s : Sequence) (t : Int)
    (hbs : 2 ≤ bs)
    (hlen : s.num_tokens = s.token_ids.length)
    (hpos : 1 ≤ s.token_ids.length)
    (htab : s.block_table = List.range (nbOf bs s.token_ids.length))
    (hN : nbOf bs (s.token_ids.length + 1) ≤ N) :
    (freshMgr N bs s.token_ids (nbOf bs s.token_ids.length)).may_append (s.appendToken t) =
      some (freshMgr N bs (s.token_ids ++ [t]) (nbOf bs (s.token_ids.length + 1)),
        { s.appendToken t with
            block_table := List.range (nbOf bs (s.token_ids.length + 1)) }) := by
  have hbs0 : 0 < bs := by omega
  have hdm := Nat.div_add_mod' s.token_ids.length bs
  have hmlt : s.token_ids.length % bs < bs := Nat.mod_lt _ hbs0
  by_cases hr0 : s.token_ids.length % bs = 0
  · have hq1 : 1 ≤ s.token_ids.length / bs := by
      by_contra h
      have h0 : s.token_ids.length / bs = 0 := Nat.lt_one_iff.mp (Nat.lt_of_not_le h)
      rw [h0] at hdm
      omega
    have hLq : s.token_ids.length = s.token_ids.length / bs * bs := by omega
    have hnbL : nbOf bs s.token_ids.length = s.token_ids.length / bs := nbOf_dvd hbs0 hr0
    have hmod1 : (s.token_ids.length + 1) % bs = 1 := by
      rw [show s.token_ids.length + 1 = 1 + s.token_ids.length / bs * bs by omega,
        Nat.add_mul_mod_self_right, Nat.mod_eq_of_lt (by omega)]
    have hnbL1 : nbOf bs (s.token_ids.length + 1) = s.token_ids.length / bs + 1 := by
      rw [nbOf_not_dvd hbs0 (by rw [hmod1]; omega)]
      congr 1
      rw [show s.token_ids.length + 1 = 1 + s.token_ids.length / bs * bs by omega,
        Nat.add_mul_div_right _ _ hbs0, Nat.div_eq_of_lt (show 1 < bs by omega)]
      omega
    rw [hnbL] at htab
    rw [hnbL1] at hN
    rw [hnbL, hnbL1]
    exact grow_step_cross s t hbs hlen hLq hq1 htab hN
  · by_cases hr1 : s.token_ids.length % bs = bs - 1
    · have hsm : (s.token_ids.length / bs + 1) * bs = s.token_ids.length / bs * bs + bs :=
        Nat.succ_mul _ _
      have hLq : s.token_ids.length + 1 = (s.token_ids.length / bs + 1) * bs := by omega
      have hmod0 : (s.token_ids.length + 1) % bs = 0 := by
        rw [hLq, Nat.mul_mod_left]
      have hnbL : nbOf bs s.token_ids.length = s.token_ids.length / bs + 1 :=
        nbOf_not_dvd hbs0 hr0
      have hnbL1 : nbOf bs (s.token_ids.length + 1) = s.token_ids.length / bs + 1 := by
        rw [nbOf_dvd hbs0 hmod0, hLq, Nat.mul_div_cancel _ hbs0]
      rw [hnbL] at htab
      rw [hnbL1] at hN
      rw [hnbL, hnbL1]
      exact grow_step_complete s t hbs hlen hLq htab hN
    · have hrpos : 1 ≤ s.token_ids.length % bs := by omega
      have hrbs : s.token_ids.length % bs + 1 < bs := by omega
      have hLq : s.token_ids.length =
          s.token_ids.length / bs * bs + s.token_ids.length % bs := hdm.symm
      have hmodr : (s.token_ids.length + 1) % bs = s.token_ids.length % bs + 1 := by
        rw [show s.token_ids.length + 1 =
            (s.token_ids.length % bs + 1) + s.token_ids.length / bs * bs by omega,
          Nat.add_mul_mod_self_right, Nat.mod_eq_of_lt (by omega)]
      have hnbL : nbOf bs s.token_ids.length = s.token_ids.length / bs + 1 :=
        nbOf_not_dvd hbs0 hr0
      have hnbL1 : nbOf bs (s.token_ids.length + 1) = s.token_ids.length / bs + 1 := by
        rw [nbOf_not_dvd hbs0 (by rw [hmodr]; omega)]
        congr 1
        rw [show s.token_ids.length + 1 =
            (s.token_ids.length % bs + 1) + s.token_ids.length / bs * bs by omega,
          Nat.add_mul_div_right _ _ hbs0, Nat.div_eq_of_lt (by omega)]
        omega
      rw [hnbL] at htab
      rw [hnbL1] at hN
      rw [hnbL, hnbL1]
      exact grow_step_mid s t hbs hlen hLq hrpos hrbs htab hN

/-- Folding the per-token cycle over a whole completion list keeps the state
canonical: the manager ends exactly as if the extended list had been bound
fresh, and the sequence carries the extended tokens and table. -/
theorem growAll_fresh {N bs : Nat} (C : List Int) (s : Sequence)
    (hbs : 2 ≤ bs)
    (hlen : s.num_tokens = s.token_ids.length)
    (hpos : 1 ≤ s.token_ids.length)
    (htab : s.block_table = List.range (nbOf bs s.token_ids.length))
    (hN : nbOf bs (s.token_ids.length + C.length) ≤ N) :
    ∃ s2 : Sequence,
      growAll (freshMgr N bs s.token_ids (nbOf bs s.token_ids.length)) s C =
        some (freshMgr N bs (s.token_ids ++ C) (nbOf bs (s.token_ids ++ C).length), s2) ∧
      s2.token_ids = s.token_ids ++ C ∧
      s2.num_tokens = s.num_tokens + C.length ∧
      s2.block_table = List.range (nbOf bs (s.token_ids ++ C).length) := by
  induction C generalizing s with
  | nil =>
    refine ⟨s, ?_, ?_, rfl, ?_⟩
    · rw [List.append_nil]
      rfl
    · rw [List.append_nil]
    · rw [List.append_nil]
      exact htab
  | cons t rest ih =>
    have hstep := grow_step s t hbs hlen hpos htab
      (le_trans (nbOf_mono bs (show s.token_ids.length + 1 ≤
        s.token_ids.length + (t :: rest).length by
          rw [List.length_cons]; omega)) hN)
    rw [show growAll (freshMgr N bs s.token_ids (nbOf bs s.token_ids.length)) s (t :: rest) =
        ((freshMgr N bs s.token_ids (nbOf bs s.token_ids.length)).may_append
          (s.appendToken t)).bind (fun q => growAll q.1 q.2 rest) from rfl,
      hstep, Option.some_bind]
    obtain ⟨s2, hrun, htok, hnum, htb⟩ := ih
      ({ s.appendToken t with
          block_table := List.range (nbOf bs (s.token_ids.length + 1)) })
      (by show s.num_tokens + 1 = (s.token_ids ++ [t]).length
          rw [List.length_append, List.length_singleton]
          omega)
      (by show 1 ≤ (s.token_ids ++ [t]).length
          rw [List.length_append, List.length_singleton]
          omega)
      (by show List.range (nbOf bs (s.token_ids.length + 1)) =
            List.range (nbOf bs (s.token_ids ++ [t]).length)
          rw [List.length_append, List.length_singleton])
      (by show nbOf bs ((s.token_ids ++ [t]).length + rest.length) ≤ N
          rw [List.length_append, List.length_singleton]
          exact le_trans (nbOf_mono bs (show s.token_ids.length + 1 + rest.length ≤
            s.token_ids.length + (t :: rest).length by rw [List.length_cons]; omega)) hN)
    have e2 : ({ s.appendToken t with
        block_table := List.range (nbOf bs (s.token_ids.length + 1)) } : Sequence).token_ids
        ++ rest = s.token_ids ++ t :: rest := by
      show (s.token_ids ++ [t]) ++ rest = _
      rw [List.append_assoc, List.singleton_append]
    have e4 : freshMgr N bs
        ({ s.appendToken t with
            block_table := List.range (nbOf bs (s.token_ids.length + 1)) } : Sequence).token_ids
        (nbOf bs ({ s.appendToken t with
            block_table := List.range (nbOf bs (s.token_ids.length + 1)) } : Sequence).token_ids.length) =
        freshMgr N bs (s.token_ids ++ [t]) (nbOf bs (s.token_ids.length + 1)) := by
      show freshMgr N bs (s.token_ids ++ [t]) (nbOf bs (s.token_ids ++ [t]).length) = _
      rw [List.length_append, List.length_singleton]
    rw [e4, e2] at hrun
    rw [e2] at htok htb
    refine ⟨s2, hrun, htok, ?_, htb⟩
    show s2.num_tokens = s.num_tokens + (rest.length + 1)
    have e5 : ({ s.appendToken t with
        block_table := List.range (nbOf bs (s.token_ids.length + 1)) } : Sequence).num_tokens =
        s.num_tokens + 1 := rfl
    omega

theorem init_eq_some {ts : List Int} {s : Sequence} (h : Sequence.init ts = some s) :
    s.token_ids = ts ∧ s.num_tokens = ts.length ∧ s.num_prompt_tokens = ts.length ∧
    s.num_cached_tokens = 0 ∧ s.block_table = [] ∧ 1 ≤ ts.length := by
  unfold Sequence.init at h
  cases hgl : ts.getLast? with
  | none =>
    rw [hgl] at h
    exact absurd h (by simp)
  | some t =>
    rw [hgl] at h
    cases h
    refine ⟨rfl, rfl, rfl, rfl, rfl, ?_⟩
    cases ts with
    | nil => simp at hgl
    | cons a l =>
      rw [List.length_cons]
      omega

/-- **C5.** Bulk vs incremental equivalence: starting from an all-free pool
with an empty hash index in both runs, allocating the full token list in one
`allocate` call, versus allocating the prompt prefix and then growing token
by token with `append_token` + `may_append` over the completion list, ends
with the identical manager (hence identical content hashes on every block)
and the identical block table. -/
theorem bulk_vs_incremental_equivalence {N bs : Nat} {P C : List Int} {sFull sP : Sequence}
    (hbs : 2 ≤ bs)
    (hFull : Sequence.init (P ++ C) = some sFull)
    (hP : Sequence.init P = some sP)
    (hN : nbOf bs (P ++ C).length ≤ N) :
    ∃ mB sB mp sq mI sI,
      (BlockManager.init N bs).allocate sFull = some (mB, sB) ∧
      (BlockManager.init N bs).allocate sP = some (mp, sq) ∧
      growAll mp sq C = some (mI, sI) ∧
      mB = mI ∧ sB.block_table = sI.block_table ∧
      ∀ j, (mB.getBlock j).hash = (mI.getBlock j).hash := by
  obtain ⟨htokF, hntF, -, -, htabF, hposF⟩ := init_eq_some hFull
  obtain ⟨htokP, hntP, -, -, htabP, hposP⟩ := init_eq_some hP
  have hbulk := allocate_fresh (show 0 < bs by omega) htabF
    (by rw [hntF, htokF])
    (by show nbOf bs sFull.num_tokens ≤ N
        rw [hntF]
        exact hN)
  rw [htokF] at hbulk
  have hpal := allocate_fresh (show 0 < bs by omega) htabP
    (by rw [hntP, htokP])
    (by show nbOf bs sP.num_tokens ≤ N
        rw [hntP]
        refine le_trans (nbOf_mono bs ?_) hN
        rw [List.length_append]
        omega)
  rw [htokP] at hpal
  obtain ⟨s2, hrun, htok, hnum, htb⟩ := growAll_fresh C
    ({ sP with block_table := List.range (nbOf bs P.length) }) hbs
    (by show sP.num_tokens = sP.token_ids.length
        rw [hntP, htokP])
    (by show 1 ≤ sP.token_ids.length
        rw [htokP]
        exact hposP)
    (by show List.range (nbOf bs P.length) = List.range (nbOf bs sP.token_ids.length)
        rw [htokP])
    (by show nbOf bs (sP.token_ids.length + C.length) ≤ N
        rw [htokP]
        rw [List.length_append] at hN
        exact hN)
  have e1 : ({ sP with block_table := List.range (nbOf bs P.length) } : Sequence).token_ids
      = P := htokP
  rw [e1] at hrun htok htb
  exact ⟨_, _, _, _, _, _, hbulk, hpal, hrun, rfl, htb.symm, fun j => rfl⟩

/-! ### Reachable-state invariants (claims C3, C4, C7) -/

/-- Total number of references to pool block `i` across the block tables of
all live sequences. -/
def countAll (i : Nat) (tables : List (List Nat)) : Nat :=
  (tables.map (fun tb => tb.count i)).sum

theorem countAll_nil (i : Nat) : countAll i [] = 0 := rfl

theorem countAll_cons (i : Nat) (tb : List Nat) (rest : List (List Nat)) :
    countAll i (tb :: rest) = tb.count i + countAll i rest := rfl

theorem countAll_head_snoc (i x : Nat) (tb : List Nat) (rest : List (List Nat)) :
    countAll i ((tb ++ [x]) :: rest) =
      countAll i (tb :: rest) + (if i = x then 1 else 0) := by
  rw [countAll_cons, countAll_cons, List.count_append, List.count_cons]
  simp only [List.count_nil, beq_iff_eq]
  split_ifs with h1 h2 h2 <;> omega

theorem countAll_pos_of_mem {i : Nat} {tb : List Nat} {rest : List (List Nat)}
    (h : i ∈ tb) : 1 ≤ countAll i (tb :: rest) := by
  rw [countAll_cons]
  have := List.count_pos_iff.mpr h
  omega

theorem countAll_perm (i : Nat) {t1 t2 : List (List Nat)} (h : t1.Perm t2) :
    countAll i t1 = countAll i t2 := by
  unfold countAll
  exact (h.map (fun tb => tb.count i)).sum_eq

theorem countAll_head_perm (i : Nat) {l1 l2 : List Nat} (h : l1.Perm l2)
    (rest : List (List Nat)) :
    countAll i (l1 :: rest) = countAll i (l2 :: rest) := by
  rw [countAll_cons, countAll_cons, h.count_eq]

/-- The allocator-state invariant maintained by every reachable state:
`tables` are the block tables of the currently live sequences. -/
structure MgrInv (N bs : Nat) (m : BlockManager) (tables : List (List Nat)) : Prop where
  bsz : m.block_size = bs
  bspos : 1 ≤ bs
  blen : m.blocks.length = N
  hid : ∀ i, i < N → (m.getBlock i).block_id = i
  freeLT : ∀ i ∈ m.free_block_ids, i < N
  usedLT : ∀ i ∈ m.used_block_ids, i < N
  ndfree : m.free_block_ids.Nodup
  part : ∀ i, i < N → (i ∈ m.free_block_ids ↔ i ∉ m.used_block_ids)
  refEq : ∀ i, i < N → (m.getBlock i).ref_count = (countAll i tables : Int)
  tabUsed : ∀ tb ∈ tables, ∀ i ∈ tb, i ∈ m.used_block_ids
  usedPos : ∀ i ∈ m.used_block_ids, 1 ≤ countAll i tables
  content : ∀ b ∈ m.blocks, (b.hash = -1 ∧ b.token_ids = []) ∨
      (b.hash ≠ -1 ∧ b.token_ids.length = bs)
  mapKeys : ∀ p ∈ m.hash_to_block_id, 0 ≤ p.1 ∧ p.2 < N

/-- The freshly initialised manager satisfies the invariant with no live
sequences. -/
theorem init_inv {N bs : Nat} (hbs : 1 ≤ bs) :
    MgrInv N bs (BlockManager.init N bs) [] := by
  refine ⟨rfl, hbs, by simp [BlockManager.init], ?_, ?_, ?_, ?_, ?_, ?_, ?_, ?_, ?_, ?_⟩
  · intro i hi
    show ((BlockManager.init N bs).getBlock i).block_id = i
    unfold BlockManager.init BlockManager.getBlock
    rw [List.getD_eq_getElem?_getD]
    simp [List.getElem?_map, List.getElem?_range, hi, Block.mkNew]
  · intro i hi
    simpa [BlockManager.init] using hi
  · intro i hi
    simp [BlockManager.init] at hi
  · show (List.range N).Nodup
    exact List.nodup_range N
  · intro i hi
    simp [BlockManager.init, List.mem_range, hi]
  · intro i hi
    show ((BlockManager.init N bs).getBlock i).ref_count = _
    unfold BlockManager.init BlockManager.getBlock
    rw [List.getD_eq_getElem?_getD]
    simp [List.getElem?_map, List.getElem?_range, hi, Block.mkNew, countAll_nil]
  · intro tb htb
    simp at htb
  · intro i hi
    simp [BlockManager.init] at hi
  · intro b hb
    simp only [BlockManager.init, List.mem_map, List.mem_range] at hb
    obtain ⟨j, -, rfl⟩ := hb
    exact Or.inl ⟨rfl, rfl⟩
  · intro p hp
    simp [BlockManager.init] at hp

/-- An empty table can be added for a sequence about to be allocated. -/
theorem inv_push_empty {N bs : Nat} {m : BlockManager} {tables : List (List Nat)}
    (inv : MgrInv N bs m tables) : MgrInv N bs m ([] :: tables) := by
  refine ⟨inv.bsz, inv.bspos, inv.blen, inv.hid, inv.freeLT, inv.usedLT, inv.ndfree,
    inv.part, ?_, ?_, ?_, inv.content, inv.mapKeys⟩
  · intro i hi
    rw [countAll_cons]
    simpa using inv.refEq i hi
  · intro tb htb i hi
    rw [List.mem_cons] at htb
    rcases htb with h | h
    · subst h
      simp at hi
    · exact inv.tabUsed tb h i hi
  · intro i hi
    rw [countAll_cons]
    simpa using inv.usedPos i hi

/-- A fully processed (empty) head table can be dropped. -/
theorem inv_pop_empty {N bs : Nat} {m : BlockManager} {tables : List (List Nat)}
    (inv : MgrInv N bs m ([] :: tables)) : MgrInv N bs m tables := by
  refine ⟨inv.bsz, inv.bspos, inv.blen, inv.hid, inv.freeLT, inv.usedLT, inv.ndfree,
    inv.part, ?_, ?_, ?_, inv.content, inv.mapKeys⟩
  · intro i hi
    have := inv.refEq i hi
    rwa [countAll_cons, List.count_nil, Nat.zero_add] at this
  · intro tb htb i hi
    exact inv.tabUsed tb (by simp [htb]) i hi
  · intro i hi
    have := inv.usedPos i hi
    rwa [countAll_cons, List.count_nil, Nat.zero_add] at this

/-- The invariant only reads the tables up to permutation of the list of
live sequences. -/
theorem inv_perm {N bs : Nat} {m : BlockManager} {t1 t2 : List (List Nat)}
    (inv : MgrInv N bs m t1) (hperm : t1.Perm t2) : MgrInv N bs m t2 := by
  refine ⟨inv.bsz, inv.bspos, inv.blen, inv.hid, inv.freeLT, inv.usedLT, inv.ndfree,
    inv.part, ?_, ?_, ?_, inv.content, inv.mapKeys⟩
  · intro i hi
    rw [← countAll_perm i hperm]
    exact inv.refEq i hi
  · intro tb htb i hi
    exact inv.tabUsed tb (hperm.mem_iff.mpr htb) i hi
  · intro i hi
    rw [← countAll_perm i hperm]
    exact inv.usedPos i hi

/-- The invariant only reads the head table up to permutation. -/
theorem inv_head_perm {N bs : Nat} {m : BlockManager} {l1 l2 : List Nat}
    {rest : List (List Nat)} (inv : MgrInv N bs m (l1 :: rest)) (hperm : l1.Perm l2) :
    MgrInv N bs m (l2 :: rest) := by
  refine ⟨inv.bsz, inv.bspos, inv.blen, inv.hid, inv.freeLT, inv.usedLT, inv.ndfree,
    inv.part, ?_, ?_, ?_, inv.content, inv.mapKeys⟩
  · intro i hi
    rw [← countAll_head_perm i hperm]
    exact inv.refEq i hi
  · intro tb htb i hi
    rw [List.mem_cons] at htb
    rcases htb with h | h
    · subst h
      exact inv.tabUsed l1 (by simp) i (hperm.mem_iff.mpr hi)
    · exact inv.tabUsed tb (by simp [h]) i hi
  · intro i hi
    rw [← countAll_head_perm i hperm]
    exact inv.usedPos i hi

theorem getD_set_self {α : Type} {l : List α} {i : Nat} (h : i < l.length) (b d : α) :
    (l.set i b).getD i d = b := by
  rw [List.getD_eq_getElem?_getD, List.getElem?_set_self (by simpa using h)]
  rfl

theorem getD_set_ne {α : Type} {l : List α} {i j : Nat} (h : i ≠ j) (b d : α) :
    (l.set i b).getD j d = l.getD j d := by
  rw [List.getD_eq_getElem?_getD, List.getD_eq_getElem?_getD, List.getElem?_set_ne h]

theorem getBlock_mk (bsz : Nat) (bl : List Block) (mp : List (Int × Nat))
    (fr : List Nat) (us : Finset Nat) (i : Nat) :
    (BlockManager.mk bsz bl mp fr us).getBlock i = bl.getD i (Block.mkNew 0) := rfl

theorem getBlock_mem {m : BlockManager} {i : Nat} (h : i < m.blocks.length) :
    m.getBlock i ∈ m.blocks := by
  unfold BlockManager.getBlock
  rw [List.getD_eq_getElem?_getD, List.getElem?_eq_getElem h]
  exact List.getElem_mem h

theorem countAll_head_cons_self (i : Nat) (L : List Nat) (rest : List (List Nat)) :
    countAll i ((i :: L) :: rest) = countAll i (L :: rest) + 1 := by
  rw [countAll_cons, countAll_cons, List.count_cons_self]
  omega

theorem countAll_head_cons_ne {i x : Nat} (h : i ≠ x) (L : List Nat)
    (rest : List (List Nat)) :
    countAll i ((x :: L) :: rest) = countAll i (L :: rest) := by
  rw [countAll_cons, countAll_cons, List.count_cons_of_ne h]

/-- `_allocate_block` on a free block, with the block id appended to the
live head table, preserves the invariant. -/
theorem inv_reclaim {N bs : Nat} {m : BlockManager} {tb : List Nat}
    {rest : List (List Nat)} {bid : Nat}
    (inv : MgrInv N bs m (tb :: rest))
    (hfree : bid ∈ m.free_block_ids) :
    MgrInv N bs
      { m with blocks := m.blocks.set bid (m.getBlock bid).reset,
               free_block_ids := m.free_block_ids.erase bid,
               used_block_ids := insert bid m.used_block_ids }
      ((tb ++ [bid]) :: rest) := by
  have hbidN : bid < N := inv.freeLT bid hfree
  have hbidL : bid < m.blocks.length := by rw [inv.blen]; exact hbidN
  have hnotused : bid ∉ m.used_block_ids := (inv.part bid hbidN).mp hfree
  have hcnt0 : countAll bid (tb :: rest) = 0 := by
    unfold countAll
    apply List.sum_eq_zero
    intro x hx
    rw [List.mem_map] at hx
    obtain ⟨tbx, htbx, rfl⟩ := hx
    rw [List.count_eq_zero]
    intro hmem
    exact hnotused (inv.tabUsed tbx htbx bid hmem)
  refine ⟨inv.bsz, inv.bspos, ?_, ?_, ?_, ?_, ?_, ?_, ?_, ?_, ?_, ?_, inv.mapKeys⟩
  · show (m.blocks.set bid (m.getBlock bid).reset).length = N
    rw [List.length_set]
    exact inv.blen
  · intro i hi
    rw [getBlock_mk]
    by_cases hib : i = bid
    · subst hib
      rw [getD_set_self hbidL]
      show (m.getBlock i).block_id = i
      exact inv.hid i hi
    · rw [getD_set_ne (fun he => hib he.symm)]
      exact inv.hid i hi
  · intro i hi
    exact inv.freeLT i (List.mem_of_mem_erase hi)
  · intro i hi
    rcases Finset.mem_insert.mp hi with he | hu
    · subst he
      exact hbidN
    · exact inv.usedLT i hu
  · exact inv.ndfree.erase bid
  · intro i hiN
    rw [inv.ndfree.mem_erase_iff]
    constructor
    · rintro ⟨hne, hf⟩ hmem
      rcases Finset.mem_insert.mp hmem with he | hu
      · exact hne he
      · exact ((inv.part i hiN).mp hf) hu
    · intro hni
      have hne : i ≠ bid := fun he => hni (by rw [he]; exact Finset.mem_insert_self _ _)
      have hnu : i ∉ m.used_block_ids := fun hu => hni (Finset.mem_insert_of_mem hu)
      exact ⟨hne, (inv.part i hiN).mpr hnu⟩
  · intro i hiN
    rw [getBlock_mk, countAll_head_snoc]
    by_cases hib : i = bid
    · subst hib
      rw [getD_set_self hbidL, if_pos rfl, hcnt0]
      rfl
    · rw [getD_set_ne (fun he => hib he.symm), if_neg hib,
        show m.blocks.getD i (Block.mkNew 0) = m.getBlock i from rfl, inv.refEq i hiN]
      simp
  · intro tbx htbx i hi
    rw [List.mem_cons] at htbx
    rcases htbx with he | hr
    · subst he
      rcases List.mem_append.mp hi with h1 | h2
      · exact Finset.mem_insert_of_mem (inv.tabUsed tb (by simp) i h1)
      · rw [List.mem_singleton] at h2
        subst h2
        exact Finset.mem_insert_self _ _
    · exact Finset.mem_insert_of_mem (inv.tabUsed tbx (by simp [hr]) i hi)
  · intro i hi
    rw [countAll_head_snoc]
    rcases Finset.mem_insert.mp hi with he | hu
    · subst he
      rw [if_pos rfl]
      omega
    · have := inv.usedPos i hu
      omega
  · intro b hb
    rcases List.mem_or_eq_of_mem_set hb with h1 | h2
    · exact inv.content b h1
    · subst h2
      exact Or.inl ⟨rfl, rfl⟩

/-- A cache hit on an in-use block (`ref_count += 1`), with the block id
appended to the live head table, preserves the invariant. -/
theorem inv_bump {N bs : Nat} {m : BlockManager} {tb : List Nat}
    {rest : List (List Nat)} {bid : Nat}
    (inv : MgrInv N bs m (tb :: rest))
    (hused : bid ∈ m.used_block_ids) :
    MgrInv N bs
      (m.setBlock bid
        { m.getBlock bid with ref_count := (m.getBlock bid).ref_count + 1 })
      ((tb ++ [bid]) :: rest) := by
  have hbidN : bid < N := inv.usedLT bid hused
  have hbidL : bid < m.blocks.length := by rw [inv.blen]; exact hbidN
  refine ⟨inv.bsz, inv.bspos, ?_, ?_, inv.freeLT, inv.usedLT, inv.ndfree, inv.part,
    ?_, ?_, ?_, ?_, inv.mapKeys⟩
  · show (m.blocks.set bid _).length = N
    rw [List.length_set]
    exact inv.blen
  · intro i hi
    show ((m.blocks.set bid _).getD i _).block_id = i
    by_cases hib : i = bid
    · subst hib
      rw [getD_set_self hbidL]
      exact inv.hid i hi
    · rw [getD_set_ne (fun he => hib he.symm)]
      exact inv.hid i hi
  · intro i hiN
    show ((m.blocks.set bid _).getD i _).ref_count = _
    rw [countAll_head_snoc]
    by_cases hib : i = bid
    · subst hib
      rw [getD_set_self hbidL, if_pos rfl]
      show (m.getBlock i).ref_count + 1 = _
      rw [inv.refEq i hiN]
      push_cast
      ring
    · rw [getD_set_ne (fun he => hib he.symm), if_neg hib]
      have := inv.refEq i hiN
      rw [show (m.blocks.getD i (Block.mkNew 0)) = m.getBlock i from rfl, this]
      simp
  · intro tbx htbx i hi
    rw [List.mem_cons] at htbx
    rcases htbx with he | hr
    · subst he
      rcases List.mem_append.mp hi with h1 | h2
      · exact inv.tabUsed tb (by simp) i h1
      · rw [List.mem_singleton] at h2
        subst h2
        exact hused
    · exact inv.tabUsed tbx (by simp [hr]) i hi
  · intro i hi
    rw [countAll_head_snoc]
    have := inv.usedPos i hi
    omega
  · intro b hb
    rcases List.mem_or_eq_of_mem_set hb with h1 | h2
    · exact inv.content b h1
    · subst h2
      exact inv.content (m.getBlock bid) (getBlock_mem hbidL)

/-- Sealing a full block (`Block.update` with a real hash and a full token
slice) and registering it in the hash index preserves the invariant. -/
theorem inv_seal {N bs : Nat} {m : BlockManager} {tables : List (List Nat)}
    {bid : Nat} {h0 : Int} {tids : List Int}
    (inv : MgrInv N bs m tables)
    (hbidN : bid < N) (hh : 0 ≤ h0) (hlen : tids.length = bs) :
    MgrInv N bs
      { m.setBlock bid ((m.getBlock bid).update h0 tids) with
        hash_to_block_id := dictInsert m.hash_to_block_id h0 bid } tables := by
  have hbidL : bid < m.blocks.length := by rw [inv.blen]; exact hbidN
  refine ⟨inv.bsz, inv.bspos, ?_, ?_, inv.freeLT, inv.usedLT, inv.ndfree, inv.part,
    ?_, inv.tabUsed, inv.usedPos, ?_, ?_⟩
  · show (m.blocks.set bid _).length = N
    rw [List.length_set]
    exact inv.blen
  · intro i hi
    show ((m.blocks.set bid _).getD i _).block_id = i
    by_cases hib : i = bid
    · subst hib
      rw [getD_set_self hbidL]
      exact inv.hid i hi
    · rw [getD_set_ne (fun he => hib he.symm)]
      exact inv.hid i hi
  · intro i hiN
    show ((m.blocks.set bid _).getD i _).ref_count = _
    by_cases hib : i = bid
    · subst hib
      rw [getD_set_self hbidL]
      exact inv.refEq i hiN
    · rw [getD_set_ne (fun he => hib he.symm)]
      exact inv.refEq i hiN
  · intro b hb
    rcases List.mem_or_eq_of_mem_set hb with h1 | h2
    · exact inv.content b h1
    · subst h2
      right
      constructor
      · show h0 ≠ -1
        omega
      · exact hlen
  · intro p hp
    rcases List.mem_cons.mp hp with he | hr
    · subst he
      exact ⟨hh, hbidN⟩
    · exact inv.mapKeys p (List.mem_of_mem_filter hr)

theorem countAll_pos_of_mem_mem {i : Nat} {tbx : List Nat} {tables : List (List Nat)}
    (h1 : tbx ∈ tables) (h2 : i ∈ tbx) : 1 ≤ countAll i tables := by
  unfold countAll
  have hc : 1 ≤ tbx.count i := List.count_pos_iff.mpr h2
  have hmem : tbx.count i ∈ tables.map (fun tb => tb.count i) :=
    List.mem_map_of_mem _ h1
  have := List.single_le_sum (fun x _ => Nat.zero_le x) _ hmem
  omega

/-- One `deallocate` loop iteration (decrement, release at zero) preserves
the invariant, consuming one occurrence from the head table. -/
theorem deallocStep_pres {N bs : Nat} {m m2 : BlockManager} {bid : Nat} {L : List Nat}
    {rest : List (List Nat)}
    (inv : MgrInv N bs m ((bid :: L) :: rest))
    (h : deallocStep m bid = some m2) :
    MgrInv N bs m2 (L :: rest) := by
  simp only [deallocStep] at h
  split_ifs at h with hlt hz
  · -- release: the count reached zero and the block moves to the free deque
    have hbidN : bid < N := by rw [← inv.blen]; exact hlt
    have hused : bid ∈ m.used_block_ids := inv.tabUsed (bid :: L) (by simp) bid (by simp)
    have hnotfree : bid ∉ m.free_block_ids := fun hf => ((inv.part bid hbidN).mp hf) hused
    have href := inv.refEq bid hbidN
    have hcnt := countAll_head_cons_self bid L rest
    have hcnt0 : countAll bid (L :: rest) = 0 := by omega
    unfold BlockManager.deallocBlock at h
    split_ifs at h with hg
    · injection h with h2
      subst h2
      refine ⟨inv.bsz, inv.bspos, ?_, ?_, ?_, ?_, ?_, ?_, ?_, ?_, ?_, ?_, inv.mapKeys⟩
      · show (m.blocks.set bid _).length = N
        rw [List.length_set]
        exact inv.blen
      · intro i hi
        show ((m.blocks.set bid _).getD i _).block_id = i
        by_cases hib : i = bid
        · subst hib
          rw [getD_set_self hlt]
          exact inv.hid i hi
        · rw [getD_set_ne (fun he => hib he.symm)]
          exact inv.hid i hi
      · intro i hi
        rcases List.mem_append.mp hi with h1 | h1
        · exact inv.freeLT i h1
        · rw [List.mem_singleton] at h1
          subst h1
          exact hbidN
      · intro i hi
        exact inv.usedLT i (Finset.mem_of_mem_erase hi)
      · rw [List.nodup_append]
        refine ⟨inv.ndfree, List.nodup_singleton bid, ?_⟩
        intro x hx hx2
        rw [List.mem_singleton] at hx2
        subst hx2
        exact hnotfree hx
      · intro i hiN
        rw [List.mem_append, List.mem_singleton, Finset.mem_erase]
        constructor
        · rintro (hf | he) h2
          · exact ((inv.part i hiN).mp hf) h2.2
          · exact h2.1 he
        · intro hn
          by_cases hib : i = bid
          · right
            exact hib
          · left
            apply (inv.part i hiN).mpr
            intro hu
            exact hn ⟨hib, hu⟩
      · intro i hiN
        show ((m.blocks.set bid _).getD i _).ref_count = _
        by_cases hib : i = bid
        · subst hib
          rw [getD_set_self hlt, hcnt0]
          exact hz
        · rw [getD_set_ne (fun he => hib he.symm), ← countAll_head_cons_ne hib L rest,
            show m.blocks.getD i (Block.mkNew 0) = m.getBlock i from rfl]
          exact inv.refEq i hiN
      · intro tbx htbx i hi
        have hne : i ≠ bid := by
          intro he
          subst he
          have : 1 ≤ countAll i (L :: rest) := countAll_pos_of_mem_mem htbx hi
          omega
        have hmemUsed : i ∈ m.used_block_ids := by
          rw [List.mem_cons] at htbx
          rcases htbx with he | hr
          · subst he
            exact inv.tabUsed (bid :: tbx) (by simp) i (List.mem_cons_of_mem _ hi)
          · exact inv.tabUsed tbx (by simp [hr]) i hi
        exact Finset.mem_erase.mpr ⟨hne, hmemUsed⟩
      · intro i hi
        obtain ⟨hne, hu⟩ := Finset.mem_erase.mp hi
        have := inv.usedPos i hu
        rw [countAll_head_cons_ne hne] at this
        exact this
      · intro b hb
        rcases List.mem_or_eq_of_mem_set hb with h1 | h1
        · exact inv.content b h1
        · subst h1
          exact inv.content (m.getBlock bid) (getBlock_mem hlt)
  · -- decrement only: the count stays positive
    injection h with h2
    subst h2
    have hbidN : bid < N := by rw [← inv.blen]; exact hlt
    have href := inv.refEq bid hbidN
    have hcnt := countAll_head_cons_self bid L rest
    have hcntpos : 1 ≤ countAll bid ((bid :: L) :: rest) := countAll_pos_of_mem (by simp)
    refine ⟨inv.bsz, inv.bspos, ?_, ?_, inv.freeLT, inv.usedLT, inv.ndfree, inv.part,
      ?_, ?_, ?_, ?_, inv.mapKeys⟩
    · show (m.blocks.set bid _).length = N
      rw [List.length_set]
      exact inv.blen
    · intro i hi
      show ((m.blocks.set bid _).getD i _).block_id = i
      by_cases hib : i = bid
      · subst hib
        rw [getD_set_self hlt]
        exact inv.hid i hi
      · rw [getD_set_ne (fun he => hib he.symm)]
        exact inv.hid i hi
    · intro i hiN
      show ((m.blocks.set bid _).getD i _).ref_count = _
      by_cases hib : i = bid
      · subst hib
        rw [getD_set_self hlt]
        show (m.getBlock i).ref_count - 1 = _
        omega
      · rw [getD_set_ne (fun he => hib he.symm), ← countAll_head_cons_ne hib L rest,
          show m.blocks.getD i (Block.mkNew 0) = m.getBlock i from rfl]
        exact inv.refEq i hiN
    · intro tbx htbx i hi
      rw [List.mem_cons] at htbx
      rcases htbx with he | hr
      · subst he
        exact inv.tabUsed (bid :: tbx) (by simp) i (List.mem_cons_of_mem _ hi)
      · exact inv.tabUsed tbx (by simp [hr]) i hi
    · intro i hi
      have hold := inv.usedPos i hi
      by_cases hib : i = bid
      · subst hib
        omega
      · rw [countAll_head_cons_ne hib] at hold
        exact hold
    · intro b hb
      rcases List.mem_or_eq_of_mem_set hb with h1 | h1
      · exact inv.content b h1
      · subst h1
        exact inv.content (m.getBlock bid) (getBlock_mem hlt)

/-- The whole `deallocate` loop consumes the head table and preserves the
invariant over the remaining live tables. -/
theorem deallocLoop_pres {N bs : Nat} :
    ∀ {L : List Nat} {m m2 : BlockManager} {rest : List (List Nat)},
      MgrInv N bs m (L :: rest) → deallocLoop m L = some m2 → MgrInv N bs m2 rest := by
  intro L
  induction L with
  | nil =>
    intro m m2 rest inv h
    injection h with h2
    subst h2
    exact inv_pop_empty inv
  | cons bid tl ih =>
    intro m m2 rest inv h
    rw [show deallocLoop m (bid :: tl) =
        (deallocStep m bid).bind (fun mm => deallocLoop mm tl) from rfl] at h
    cases hstep : deallocStep m bid with
    | none =>
      rw [hstep] at h
      exact absurd h (by simp)
    | some mm =>
      rw [hstep, Option.some_bind] at h
      exact ih (deallocStep_pres inv hstep) h

/-- `BlockManager.deallocate` drops a live sequence's table and preserves the
invariant. -/
theorem deallocate_pres {N bs : Nat} {m m2 : BlockManager} {s : Sequence} {s2 : Sequence}
    {rest : List (List Nat)}
    (inv : MgrInv N bs m (s.block_table :: rest))
    (h : m.deallocate s = some (m2, s2)) : MgrInv N bs m2 rest := by
  unfold BlockManager.deallocate at h
  obtain ⟨mm, hloop, hpair⟩ := Option.map_eq_some'.mp h
  have hm : mm = m2 := congrArg Prod.fst hpair
  subst hm
  exact deallocLoop_pres (inv_head_perm inv (List.reverse_perm s.block_table).symm) hloop

/-- One `allocate` loop iteration preserves the invariant, appending one
block id to the in-flight sequence's table. -/
theorem allocStep_pres {N bs : Nat} {st st2 : AllocSt} {tids : List Int}
    {rest : List (List Nat)}
    (inv : MgrInv N bs st.mgr (st.seq.block_table :: rest))
    (h : allocStep bs st tids = some st2) :
    MgrInv N bs st2.mgr (st2.seq.block_table :: rest) ∧
    st2.seq.token_ids = st.seq.token_ids ∧ st2.seq.num_tokens = st.seq.num_tokens := by
  simp only [allocStep] at h
  obtain ⟨q, hcore, hst2⟩ := Option.map_eq_some'.mp h
  subst hst2
  by_cases hlen : tids.length = bs
  · rw [if_pos hlen] at hcore ⊢
    by_cases hmiss : (st.cache_miss ||
        decide (dictGet st.mgr.hash_to_block_id (compute_hash tids st.hsh) = -1) ||
        decide ((st.mgr.getBlock
          (dictGet st.mgr.hash_to_block_id (compute_hash tids st.hsh)).toNat).token_ids
            ≠ tids)) = true
    · -- forced or genuine miss: bind the head of the free deque
      rw [if_pos hmiss] at hcore
      cases hfree : st.mgr.free_block_ids with
      | nil =>
        rw [hfree] at hcore
        exact absurd hcore (by simp)
      | cons bid tl =>
        rw [hfree] at hcore
        obtain ⟨mA, halloc, hq⟩ := Option.map_eq_some'.mp hcore
        subst hq
        unfold BlockManager.allocBlock at halloc
        split_ifs at halloc with hg
        injection halloc with hA
        subst hA
        have hfreeM : bid ∈ st.mgr.free_block_ids := by
          rw [hfree]
          exact List.mem_cons_self _ _
        have invA := inv_reclaim inv hfreeM
        have hhne : compute_hash tids st.hsh ≠ -1 := by
          have := compute_hash_nonneg tids st.hsh
          omega
        rw [if_pos hhne]
        refine ⟨?_, rfl, rfl⟩
        exact inv_seal invA (inv.freeLT bid hfreeM) (compute_hash_nonneg _ _) hlen
    · -- cache hit: the lookup succeeded and the contents match
      rw [if_neg hmiss] at hcore
      have hm2 : dictGet st.mgr.hash_to_block_id (compute_hash tids st.hsh) ≠ -1 := by
        intro he
        apply hmiss
        rw [he]
        simp
      obtain ⟨p, hpmem, hpk, hpv⟩ := dictGet_found hm2
      obtain ⟨hknn, hvN⟩ := inv.mapKeys p hpmem
      have htoNat : (dictGet st.mgr.hash_to_block_id (compute_hash tids st.hsh)).toNat
          = p.2 := by
        rw [← hpv]
        simp
      rw [htoNat] at hcore ⊢
      have hhne : compute_hash tids st.hsh ≠ -1 := by
        have := compute_hash_nonneg tids st.hsh
        omega
      split_ifs at hcore with hu
      · -- hit on an in-use block: bump its reference count
        injection hcore with hq
        subst hq
        have invB := inv_bump inv hu
        rw [if_pos hhne]
        refine ⟨?_, rfl, rfl⟩
        exact inv_seal invB hvN (compute_hash_nonneg _ _) hlen
      · -- hit on a freed block: reclaim it from the free deque
        obtain ⟨mA, halloc, hq⟩ := Option.map_eq_some'.mp hcore
        subst hq
        unfold BlockManager.allocBlock at halloc
        split_ifs at halloc with hg
        injection halloc with hA
        subst hA
        have invA := inv_reclaim inv hg.2.2
        rw [if_pos hhne]
        refine ⟨?_, rfl, rfl⟩
        exact inv_seal invA hvN (compute_hash_nonneg _ _) hlen
  · -- a partial (last) logical block: the sentinel hash always misses
    rw [if_neg hlen] at hcore ⊢
    have hdg : dictGet st.mgr.hash_to_block_id (-1) = -1 :=
      dictGet_not_found (fun p hp => by
        have := (inv.mapKeys p hp).1
        omega)
    have hmiss : (st.cache_miss ||
        decide (dictGet st.mgr.hash_to_block_id (-1) = -1) ||
        decide ((st.mgr.getBlock
          (dictGet st.mgr.hash_to_block_id (-1)).toNat).token_ids ≠ tids)) = true := by
      rw [hdg]
      simp
    rw [if_pos hmiss] at hcore
    cases hfree : st.mgr.free_block_ids with
    | nil =>
      rw [hfree] at hcore
      exact absurd hcore (by simp)
    | cons bid tl =>
      rw [hfree] at hcore
      obtain ⟨mA, halloc, hq⟩ := Option.map_eq_some'.mp hcore
      subst hq
      unfold BlockManager.allocBlock at halloc
      split_ifs at halloc with hg
      injection halloc with hA
      subst hA
      have hfreeM : bid ∈ st.mgr.free_block_ids := by
        rw [hfree]
        exact List.mem_cons_self _ _
      have invA := inv_reclaim inv hfreeM
      rw [if_neg (show ¬((-1 : Int) ≠ -1) from fun hc => hc rfl)]
      exact ⟨invA, rfl, rfl⟩

/-- The whole `allocate` loop preserves the invariant. -/
theorem allocLoop_pres {N bs : Nat} :
    ∀ {L : List (List Int)} {st st2 : AllocSt} {rest : List (List Nat)},
      MgrInv N bs st.mgr (st.seq.block_table :: rest) →
      allocLoop bs st L = some st2 →
      MgrInv N bs st2.mgr (st2.seq.block_table :: rest) ∧
      st2.seq.token_ids = st.seq.token_ids ∧ st2.seq.num_tokens = st.seq.num_tokens := by
  intro L
  induction L with
  | nil =>
    intro st st2 rest inv h
    injection h with h2
    subst h2
    exact ⟨inv, rfl, rfl⟩
  | cons tids tl ih =>
    intro st st2 rest inv h
    rw [show allocLoop bs st (tids :: tl) =
        (allocStep bs st tids).bind (fun s2 => allocLoop bs s2 tl) from rfl] at h
    cases hstep : allocStep bs st tids with
    | none =>
      rw [hstep] at h
      exact absurd h (by simp)
    | some mid =>
      rw [hstep, Option.some_bind] at h
      obtain ⟨inv1, htok1, hnum1⟩ := allocStep_pres inv hstep
      obtain ⟨inv2, htok2, hnum2⟩ := ih inv1 h
      exact ⟨inv2, htok2.trans htok1, hnum2.trans hnum1⟩

/-- `BlockManager.allocate` preserves the invariant, adding the new
sequence's table to the live set. -/
theorem allocate_pres {N bs : Nat} {m m2 : BlockManager} {s s2 : Sequence}
    {rest : List (List Nat)}
    (inv : MgrInv N bs m rest)
    (htab : s.block_table = [])
    (h : m.allocate s = some (m2, s2)) :
    MgrInv N bs m2 (s2.block_table :: rest) ∧
    s2.token_ids = s.token_ids ∧ s2.num_tokens = s.num_tokens := by
  unfold BlockManager.allocate at h
  rw [if_pos htab] at h
  obtain ⟨stf, hloop, hpair⟩ := Option.map_eq_some'.mp h
  have hm2 : stf.mgr = m2 := congrArg Prod.fst hpair
  have hs2 : stf.seq = s2 := congrArg Prod.snd hpair
  have inv0 : MgrInv N bs (⟨m, s, -1, false⟩ : AllocSt).mgr
      ((⟨m, s, -1, false⟩ : AllocSt).seq.block_table :: rest) := by
    show MgrInv N bs m (s.block_table :: rest)
    rw [htab]
    exact inv_push_empty inv
  have hbsz : m.block_size = bs := inv.bsz
  rw [hbsz] at hloop
  obtain ⟨inv2, htok, hnum⟩ := allocLoop_pres inv0 hloop
  rw [hm2, hs2] at inv2
  rw [hs2] at htok hnum
  exact ⟨inv2, htok, hnum⟩

/-- `BlockManager.may_append` preserves the invariant for a live sequence
(whose table is the head of the live tables). -/
theorem may_append_pres {N bs : Nat} {m m2 : BlockManager} {s s2 : Sequence}
    {rest : List (List Nat)}
    (inv : MgrInv N bs m (s.block_table :: rest))
    (hlen : s.num_tokens = s.token_ids.length)
    (hpos : 1 ≤ s.num_tokens)
    (h : m.may_append s = some (m2, s2)) :
    MgrInv N bs m2 (s2.block_table :: rest) ∧
    s2.token_ids = s.token_ids ∧ s2.num_tokens = s.num_tokens := by
  simp only [BlockManager.may_append] at h
  cases hgl : s.block_table.getLast? with
  | none =>
    rw [hgl] at h
    exact absurd h (by simp)
  | some lastId =>
    rw [hgl] at h
    simp only [] at h
    split_ifs at h with hbl hr1 hh1 hr0 hh0 hpre hh2
    · -- crossing into a fresh block: pop the free deque
      cases hfree : m.free_block_ids with
      | nil =>
        rw [hfree] at h
        exact absurd h (by simp)
      | cons bid tl =>
        rw [hfree] at h
        obtain ⟨mA, halloc, hpair⟩ := Option.map_eq_some'.mp h
        unfold BlockManager.allocBlock at halloc
        split_ifs at halloc with hg
        injection halloc with hA
        subst hA
        have hpair2 : ((BlockManager.mk m.block_size
            (m.blocks.set bid (m.getBlock bid).reset) m.hash_to_block_id
            (m.free_block_ids.erase bid) (insert bid m.used_block_ids),
            Sequence.mk s.token_ids s.last_token s.num_tokens s.num_prompt_tokens
            s.num_cached_tokens (s.block_table ++ [bid])) :
            BlockManager × Sequence) = (m2, s2) := hpair
        injection hpair2 with hm2 hs2
        subst hm2
        subst hs2
        have hfreeM : bid ∈ m.free_block_ids := by
          rw [hfree]
          exact List.mem_cons_self _ _
        exact ⟨inv_reclaim inv hfreeM, rfl, rfl⟩
    · -- sealing the just-filled last block (a chained predecessor exists)
      injection h with h2
      injection h2 with hm2 hs2
      subst hm2
      subst hs2
      refine ⟨?_, rfl, rfl⟩
      have hlastN : lastId < N := by rw [← inv.blen]; exact hbl
      have hbspos := inv.bspos
      have hchunk : (s.block m.block_size (s.num_blocks m.block_size - 1)).length = bs := by
        rw [inv.bsz]
        show (blockChunk bs s.token_ids (s.num_blocks bs - 1)).length = bs
        rw [blockChunk_length]
        have hr0b : s.num_tokens % bs = 0 := by rw [← inv.bsz]; exact hr0
        have hq := Nat.div_add_mod' s.num_tokens bs
        have hnb : s.num_blocks bs = s.num_tokens / bs := by
          rw [num_blocks_eq]
          exact nbOf_dvd (by omega) hr0b
        rw [hnb, ← hlen]
        have hq1 : 1 ≤ s.num_tokens / bs := by
          by_contra hc
          have h0 : s.num_tokens / bs = 0 := by omega
          rw [h0] at hq
          omega
        have hsm : (s.num_tokens / bs - 1) * bs + bs = s.num_tokens / bs * bs := by
          rw [← Nat.succ_mul]
          congr 1
          omega
        omega
      rw [inv.hid lastId hlastN]
      exact inv_seal inv hlastN (compute_hash_nonneg _ _) hchunk
    · -- sealing the just-filled last block (single-block table)
      injection h with h2
      injection h2 with hm2 hs2
      subst hm2
      subst hs2
      refine ⟨?_, rfl, rfl⟩
      have hlastN : lastId < N := by rw [← inv.blen]; exact hbl
      have hbspos := inv.bspos
      have hchunk : (s.block m.block_size (s.num_blocks m.block_size - 1)).length = bs := by
        rw [inv.bsz]
        show (blockChunk bs s.token_ids (s.num_blocks bs - 1)).length = bs
        rw [blockChunk_length]
        have hr0b : s.num_tokens % bs = 0 := by rw [← inv.bsz]; exact hr0
        have hq := Nat.div_add_mod' s.num_tokens bs
        have hnb : s.num_blocks bs = s.num_tokens / bs := by
          rw [num_blocks_eq]
          exact nbOf_dvd (by omega) hr0b
        rw [hnb, ← hlen]
        have hq1 : 1 ≤ s.num_tokens / bs := by
          by_contra hc
          have h0 : s.num_tokens / bs = 0 := by omega
          rw [h0] at hq
          omega
        have hsm : (s.num_tokens / bs - 1) * bs + bs = s.num_tokens / bs * bs := by
          rw [← Nat.succ_mul]
          congr 1
          omega
        omega
      rw [inv.hid lastId hlastN]
      exact inv_seal inv hlastN (compute_hash_nonneg _ _) hchunk
    · -- mid-block: no structural change
      injection h with h2
      injection h2 with hm2 hs2
      subst hm2
      subst hs2
      exact ⟨inv, rfl, rfl⟩

/-- Allocator states reachable by any interleaving of `allocate`,
`append_token` + `may_append` and `deallocate` calls, starting from a fresh
pool.  The list collects the currently live (allocated, not yet freed)
sequences; the `perm` rule lets the operations target any live sequence. -/
inductive Reach (N bs : Nat) : BlockManager → List Sequence → Prop
  | init : 1 ≤ bs → Reach N bs (BlockManager.init N bs) []
  | alloc {m live s m2 s2} : Reach N bs m live →
      s.block_table = [] → s.num_tokens = s.token_ids.length →
      m.allocate s = some (m2, s2) → Reach N bs m2 (s2 :: live)
  | grow {m live s t m2 s2} : Reach N bs m (s :: live) →
      m.may_append (s.appendToken t) = some (m2, s2) → Reach N bs m2 (s2 :: live)
  | dealloc {m live s m2 s2} : Reach N bs m (s :: live) →
      m.deallocate s = some (m2, s2) → Reach N bs m2 live
  | perm {m live live2} : Reach N bs m live → live.Perm live2 → Reach N bs m live2

/-- Every reachable state satisfies the allocator invariant, and every live
sequence's token count matches its token list. -/
theorem reach_inv {N bs : Nat} {m : BlockManager} {live : List Sequence}
    (h : Reach N bs m live) :
    MgrInv N bs m (live.map Sequence.block_table) ∧
    ∀ s ∈ live, s.num_tokens = s.token_ids.length := by
  induction h with
  | init hbs =>
    refine ⟨init_inv hbs, ?_⟩
    intro s hs
    simp at hs
  | alloc hre htab hslen hal ih =>
    obtain ⟨inv, hseq⟩ := ih
    obtain ⟨inv2, htok, hnum⟩ := allocate_pres inv htab hal
    refine ⟨inv2, ?_⟩
    intro x hx
    rw [List.mem_cons] at hx
    rcases hx with he | hr
    · subst he
      rw [hnum, htok]
      exact hslen
    · exact hseq x hr
  | grow hre hma ih =>
    obtain ⟨inv, hseq⟩ := ih
    rename_i m0 live0 s0 t0 m20 s20
    have hlen0 : (s0.appendToken t0).num_tokens = (s0.appendToken t0).token_ids.length := by
      show s0.num_tokens + 1 = (s0.token_ids ++ [t0]).length
      rw [List.length_append, List.length_singleton, hseq s0 (by simp)]
    have hpos0 : 1 ≤ (s0.appendToken t0).num_tokens := by
      show 1 ≤ s0.num_tokens + 1
      omega
    have invh : MgrInv N bs m0 ((s0.appendToken t0).block_table ::
        live0.map Sequence.block_table) := inv
    obtain ⟨inv2, htok, hnum⟩ := may_append_pres invh hlen0 hpos0 hma
    refine ⟨inv2, ?_⟩
    intro x hx
    rw [List.mem_cons] at hx
    rcases hx with he | hr
    · subst he
      rw [hnum, htok]
      exact hlen0
    · exact hseq x (by simp [hr])
  | dealloc hre hde ih =>
    obtain ⟨inv, hseq⟩ := ih
    refine ⟨deallocate_pres inv hde, ?_⟩
    intro x hx
    exact hseq x (by simp [hx])
  | perm hre hp ih =>
    obtain ⟨inv, hseq⟩ := ih
    refine ⟨inv_perm inv (hp.map _), ?_⟩
    intro x hx
    exact hseq x (hp.mem_iff.mpr hx)

/-- The one-token sequence `[5]` as built by `Sequence.__init__`. -/
def cexSeq : Sequence := ⟨[5], 5, 1, 1, 0, []⟩

/-- The sequence after `allocate` has filled its block table. -/
def cexSeq2 : Sequence := ⟨[5], 5, 1, 1, 0, [0]⟩

/-- The one-block pool (block size 1) right after allocating `[5]`. -/
def cexMid : BlockManager := ⟨1, [⟨0, 1, 12322, [5]⟩], [(12322, 0)], [], {0}⟩

/-- The same pool after deallocating the sequence again: block 0 is free but
still holds its hash and its token content. -/
def cexEnd : BlockManager := ⟨1, [⟨0, 0, 12322, [5]⟩], [(12322, 0)], [0], ∅⟩

theorem cexMid_reach : Reach 1 1 cexMid [cexSeq2] :=
  @Reach.alloc 1 1 (BlockManager.init 1 1) [] cexSeq cexMid cexSeq2
    (Reach.init (le_refl 1)) rfl rfl (by decide)

/-- A one-block pool with block size 2 right after allocating the one-token
sequence `[5]`: its only block is partially filled (0 of 2 tokens), carries
the sentinel hash and nothing is registered in the hash index. -/
def cexPart : BlockManager := ⟨2, [⟨0, 1, -1, []⟩], [], [], {0}⟩

theorem cexPart_reach : Reach 1 2 cexPart [cexSeq2] :=
  @Reach.alloc 1 2 (BlockManager.init 1 2) [] cexSeq cexPart cexSeq2
    (Reach.init (by decide)) rfl rfl (by decide)

theorem cexEnd_reach : Reach 1 1 cexEnd [] :=
  Reach.dealloc cexMid_reach
    (show cexMid.deallocate cexSeq2 = some (cexEnd, ⟨[5], 5, 1, 1, 0, []⟩) by decide)

/-- **C3.** After any interleaving of allocations, per-token growth and
deallocations in which every allocated sequence has been deallocated again
(no live sequences remain), every block's `ref_count` is `0`, the used set
is empty, and every pool block id appears in the free deque exactly once. -/
theorem refcount_conservation {N bs : Nat} {m : BlockManager}
    (h : Reach N bs m []) :
    (∀ i, i < N → (m.getBlock i).ref_count = 0) ∧
    m.used_block_ids = ∅ ∧
    (∀ i, i < N → m.free_block_ids.count i = 1) ∧
    (∀ i ∈ m.free_block_ids, i < N) := by
  obtain ⟨inv, -⟩ := reach_inv h
  refine ⟨?_, ?_, ?_, inv.freeLT⟩
  · intro i hi
    have := inv.refEq i hi
    rw [show ((([] : List Sequence).map Sequence.block_table) : List (List Nat))
      = [] from rfl, countAll_nil] at this
    simpa using this
  · apply Finset.eq_empty_of_forall_not_mem
    intro i hi
    have := inv.usedPos i hi
    rw [show ((([] : List Sequence).map Sequence.block_table) : List (List Nat))
      = [] from rfl, countAll_nil] at this
    omega
  · intro i hi
    have hfree : i ∈ m.free_block_ids := by
      apply (inv.part i hi).mpr
      intro hu
      have := inv.usedPos i hu
      rw [show ((([] : List Sequence).map Sequence.block_table) : List (List Nat))
        = [] from rfl, countAll_nil] at this
      omega
    exact List.count_eq_one_of_mem inv.ndfree hfree

/-- **C7.** In every reachable allocator state, a block whose hash is not
the sentinel holds exactly `block_size` tokens; a block holding fewer than
`block_size` tokens carries the sentinel hash and is never registered in
the hash index: the sentinel is never one of the index's keys, so looking
up such a block's hash always misses (`dict.get` returns `-1`), and the
block can never be found or shared through the index. -/
theorem full_hash_invariant {N bs : Nat} {m : BlockManager} {live : List Sequence}
    (h : Reach N bs m live) :
    (∀ b ∈ m.blocks, (b.hash ≠ -1 → b.token_ids.length = m.block_size) ∧
      (b.token_ids.length < m.block_size → b.hash = -1)) ∧
    (∀ p ∈ m.hash_to_block_id, p.1 ≠ -1) ∧
    (∀ b ∈ m.blocks, b.token_ids.length < m.block_size →
      dictGet m.hash_to_block_id b.hash = -1) := by
  obtain ⟨inv, -⟩ := reach_inv h
  have hcontent : ∀ b ∈ m.blocks, (b.hash ≠ -1 → b.token_ids.length = m.block_size) ∧
      (b.token_ids.length < m.block_size → b.hash = -1) := by
    intro b hb
    rcases inv.content b hb with ⟨h1, h2⟩ | ⟨h1, h2⟩
    · exact ⟨fun hne => absurd h1 hne, fun _ => h1⟩
    · refine ⟨fun _ => ?_, fun hlt => ?_⟩
      · rw [h2, inv.bsz]
      · rw [inv.bsz, h2] at hlt
        omega
  have hkeys : ∀ p ∈ m.hash_to_block_id, p.1 ≠ (-1 : Int) := by
    intro p hp
    have := (inv.mapKeys p hp).1
    omega
  refine ⟨hcontent, hkeys, ?_⟩
  intro b hb hlt
  rw [(hcontent b hb).2 hlt]
  exact dictGet_not_found hkeys

/-- **C4.** The spec's sentence "`token_ids` is empty when the block is on
the free-list" is FALSE of the code: `_deallocate_block` moves a block to
the free deque without clearing its content (first conjunct: a concrete
reachable state whose free block still holds a token — this is exactly what
makes cache hits on freed blocks possible).  The corrected claim (second
conjunct): a free block's content is either empty or exactly one full
block's worth, never anything in between. -/
theorem free_block_content_corrected :
    (∃ m : BlockManager, Reach 1 1 m [] ∧ 0 ∈ m.free_block_ids ∧
      (m.getBlock 0).token_ids ≠ []) ∧
    (∀ (N bs : Nat) (m : BlockManager) (live : List Sequence), Reach N bs m live →
      ∀ i ∈ m.free_block_ids, (m.getBlock i).token_ids = [] ∨
        (m.getBlock i).token_ids.length = m.block_size) := by
  constructor
  · exact ⟨cexEnd, cexEnd_reach, by decide, by decide⟩
  · intro N bs m live hre i hi
    obtain ⟨inv, -⟩ := reach_inv hre
    have hiN : i < N := inv.freeLT i hi
    have hib : i < m.blocks.length := by rw [inv.blen]; exact hiN
    rcases inv.content (m.getBlock i) (getBlock_mem hib) with ⟨-, h2⟩ | ⟨-, h2⟩
    · exact Or.inl h2
    · right
      rw [h2, inv.bsz]

/-- Counterexample to the spec's "empty when on free-list": the reachable
one-block state after allocating and deallocating `[5]` has block 0 on the
free deque with its token content intact. -/
theorem free_block_nonempty_cex :
    Reach 1 1 cexEnd [] ∧ 0 ∈ cexEnd.free_block_ids ∧
      (cexEnd.getBlock 0).token_ids = [5] :=
  ⟨cexEnd_reach, by decide, by decide⟩

theorem refcount_conservation_witness :
    (∀ i, i < 1 → (cexEnd.getBlock i).ref_count = 0) ∧
    cexEnd.used_block_ids = ∅ ∧
    (∀ i, i < 1 → cexEnd.free_block_ids.count i = 1) ∧
    (∀ i ∈ cexEnd.free_block_ids, i < 1) :=
  refcount_conservation cexEnd_reach

theorem full_hash_invariant_witness :
    (Block.mk 0 1 (-1) []).hash = -1 ∧
    dictGet cexPart.hash_to_block_id (Block.mk 0 1 (-1) []).hash = -1 := by
  have h := full_hash_invariant cexPart_reach
  exact ⟨(h.1 (Block.mk 0 1 (-1) []) (by decide)).2 (by decide),
    h.2.2 (Block.mk 0 1 (-1) []) (by decide) (by decide)⟩

theorem bulk_vs_incremental_equivalence_witness :
    ∃ mB sB mp sq mI sI,
      (BlockManager.init 2 2).allocate (⟨[1, 2, 3], 3, 3, 3, 0, []⟩ : Sequence)
        = some (mB, sB) ∧
      (BlockManager.init 2 2).allocate (⟨[1], 1, 1, 1, 0, []⟩ : Sequence)
        = some (mp, sq) ∧
      growAll mp sq [2, 3] = some (mI, sI) ∧
      mB = mI ∧ sB.block_table = sI.block_table ∧
      ∀ j, (mB.getBlock j).hash = (mI.getBlock j).hash :=
  @bulk_vs_incremental_equivalence 2 2 [1] [2, 3]
    ⟨[1, 2, 3], 3, 3, 3, 0, []⟩ ⟨[1], 1, 1, 1, 0, []⟩
    (le_refl 2) (by decide) (by decide) (by decide)

theorem alloc_shares_exact_prefix_witness :
    ∃ mA A2 mB B2,
      (BlockManager.init 3 1).allocate (⟨[1, 2], 2, 2, 2, 0, []⟩ : Sequence)
        = some (mA, A2) ∧
      mA.allocate (⟨[1, 3], 3, 2, 2, 0, []⟩ : Sequence) = some (mB, B2) ∧
      (∀ j, j < 1 → A2.block_table[j]? = B2.block_table[j]?) ∧
      (∀ j, 1 ≤ j → ∀ a b, A2.block_table[j]? = some a → B2.block_table[j]? = some b →
        a ≠ b) ∧
      B2.num_cached_tokens = 1 * 1 :=
  alloc_shares_exact_prefix 3 1 1 ⟨[1, 2], 2, 2, 2, 0, []⟩ ⟨[1, 3], 3, 2, 2, 0, []⟩
    (by decide) rfl rfl rfl rfl rfl (by decide) (by decide) (by decide) (by decide)
    (by decide) (by decide)

theorem cache_hit_on_freed_block_witness :
    ∃ st2, allocStep 1 (⟨cexEnd, cexSeq, -1, false⟩ : AllocSt) [5] = some st2 ∧
      st2.mgr.free_block_ids = cexEnd.free_block_ids.erase 0 ∧
      st2.mgr.used_block_ids = insert 0 cexEnd.used_block_ids ∧
      (st2.mgr.getBlock 0).ref_count = 1 ∧
      (st2.mgr.getBlock 0).hash = stepHash 1 (⟨cexEnd, cexSeq, -1, false⟩ : AllocSt) [5] ∧
      (st2.mgr.getBlock 0).token_ids = [5] ∧
      st2.seq.num_cached_tokens = cexSeq.num_cached_tokens + 1 ∧
      st2.seq.block_table = cexSeq.block_table ++ [0] ∧
      st2.cache_miss = false :=
  cache_hit_on_freed_block 1 ⟨cexEnd, cexSeq, -1, false⟩ [5] 0 rfl (by decide) (by decide)
    (by decide) (by decide) (by decide) (by decide) (by decide)

end NanoVllm
